import Mathlib

/-!
# simple_raytracer: a shallow embedding of the tracing core

The C++ sources compute with `double`.  The embedding is written over an
arbitrary linearly ordered field `K` (so every definition can be evaluated
over `ℚ`), and the square root that the sources take from `<cmath>` is an
explicit argument `sqrt : K → K`.  Theorems that need the square root to
behave assume `IsSqrt sqrt`; over `ℝ` the function `Real.sqrt` satisfies it.
Random draws (`random_double`, `random_unit_vector`, `random_in_unit_sphere`,
`random_in_unit_disk`) are explicit arguments as well, and so is the tangent
`tan` that the camera constructor takes from `<cmath>`.
-/

set_option linter.dupNamespace false

namespace Raytracer

/-! ## vec3.h (the header is not part of the sources at hand) -/

/-- Modelled from the spec: the class `Vec3` of `vec3.h` (also used under the
names `Point3` and `Color`), "triple of real components (x,y,z)". -/
@[ext]
structure Vec3 (K : Type) where
  x : K
  y : K
  z : K
deriving DecidableEq, Repr

namespace Vec3

variable {K : Type} [LinearOrderedField K]

/-- Modelled from the spec: `Vec3 + Vec3` of `vec3.h` ("add"). -/
instance instAdd : Add (Vec3 K) := ⟨fun u v => ⟨u.x + v.x, u.y + v.y, u.z + v.z⟩⟩

/-- Modelled from the spec: `Vec3 - Vec3` of `vec3.h` ("subtract"). -/
instance instSub : Sub (Vec3 K) := ⟨fun u v => ⟨u.x - v.x, u.y - v.y, u.z - v.z⟩⟩

/-- Modelled from the spec: unary minus of `vec3.h`. -/
instance instNeg : Neg (Vec3 K) := ⟨fun v => ⟨-v.x, -v.y, -v.z⟩⟩

/-- Modelled from the spec: `double * Vec3` of `vec3.h` ("scale"). -/
instance instSMul : HMul K (Vec3 K) (Vec3 K) := ⟨fun t v => ⟨t * v.x, t * v.y, t * v.z⟩⟩

/-- Modelled from the spec: `Vec3 * double` of `vec3.h` ("scale"). -/
instance instMulS : HMul (Vec3 K) K (Vec3 K) := ⟨fun v t => ⟨t * v.x, t * v.y, t * v.z⟩⟩

/-- Modelled from the spec: `Vec3 * Vec3` of `vec3.h` ("component product"). -/
instance instMul : Mul (Vec3 K) := ⟨fun u v => ⟨u.x * v.x, u.y * v.y, u.z * v.z⟩⟩

/-- Modelled from the spec: `Vec3 / double` of `vec3.h`, scaling by the inverse. -/
instance instDiv : HDiv (Vec3 K) K (Vec3 K) := ⟨fun v t => ⟨v.x / t, v.y / t, v.z / t⟩⟩

/-- Modelled from the spec: `dot` of `vec3.h`. -/
def dot (u v : Vec3 K) : K := u.x * v.x + u.y * v.y + u.z * v.z

/-- Modelled from the spec: `cross` of `vec3.h`. -/
def cross (u v : Vec3 K) : Vec3 K :=
  ⟨u.y * v.z - u.z * v.y, u.z * v.x - u.x * v.z, u.x * v.y - u.y * v.x⟩

/-- Modelled from the spec: `Vec3::length_squared` of `vec3.h`. -/
def length_squared (v : Vec3 K) : K := v.x * v.x + v.y * v.y + v.z * v.z

/-- Modelled from the spec: `Vec3::length` of `vec3.h`, the square root of
`length_squared`. -/
def length (sqrt : K → K) (v : Vec3 K) : K := sqrt v.length_squared

/-- Modelled from the spec: `unit_vector` of `vec3.h` ("normalization"), the
vector divided by its length. -/
def unit_vector (sqrt : K → K) (v : Vec3 K) : Vec3 K := v / v.length sqrt

/-- Modelled from the spec: `Vec3::near_zero` of `vec3.h`, "all components
below a small epsilon"; the spec does not give the epsilon, so it is the
argument `eps`. -/
def near_zero (eps : K) (v : Vec3 K) : Bool :=
  decide (|v.x| < eps) && decide (|v.y| < eps) && decide (|v.z| < eps)

/-- Modelled from the spec: `reflect` of `vec3.h`,
"reflect(v, n) = v - 2·dot(v,n)·n". -/
def reflect (v n : Vec3 K) : Vec3 K := v - (2 * dot v n) * n

/-- Modelled from the spec: `refract` of `vec3.h`, "standard Snell refraction
decomposing into perpendicular and parallel components relative to n". -/
def refract (sqrt : K → K) (uv n : Vec3 K) (etai_over_etat : K) : Vec3 K :=
  let cos_theta := min (dot (-uv) n) 1
  let r_out_perp := etai_over_etat * (uv + cos_theta * n)
  let r_out_parallel := (-(sqrt |1 - r_out_perp.length_squared|)) * n
  r_out_perp + r_out_parallel

end Vec3

open Vec3

/-! ## math_utils.h: the square root taken from `<cmath>` -/

/-- The square root of `<cmath>` as the proofs need it: on a non-negative
argument the result is non-negative and squares to the argument. -/
def IsSqrt {K : Type} [LinearOrderedField K] (sqrt : K → K) : Prop :=
  ∀ x : K, 0 ≤ x → 0 ≤ sqrt x ∧ sqrt x * sqrt x = x

/-- The constant `pi` of `math_utils.h`, digit for digit. -/
def pi {K : Type} [LinearOrderedField K] : K := 3.14159265335897932385

/-- The function `degrees_to_radians` of `math_utils.h`. -/
def degrees_to_radians {K : Type} [LinearOrderedField K] (degrees : K) : K :=
  degrees * pi / 180.0

/-! ## ray.h -/

/-- The class `Ray`: an origin and a direction. -/
structure Ray (K : Type) where
  orig : Vec3 K
  dir : Vec3 K
deriving DecidableEq, Repr

namespace Ray

variable {K : Type} [LinearOrderedField K]

/-- The getter `Ray::origin`. -/
def origin (r : Ray K) : Vec3 K := r.orig

/-- The getter `Ray::direction`. -/
def direction (r : Ray K) : Vec3 K := r.dir

/-- The method `Ray::at`: the position at parameter `t`. -/
def «at» (r : Ray K) (t : K) : Vec3 K := r.orig + (t * r.dir)

end Ray

/-! ## material.h: the parameters of the three materials -/

/-- The data of class `Lambertian`. -/
structure Lambertian (K : Type) where
  albedo : Vec3 K
deriving DecidableEq, Repr

/-- The data of class `Metal`. -/
structure Metal (K : Type) where
  albedo : Vec3 K
  fuzz : K
deriving DecidableEq, Repr

/-- The data of class `Dielectric`. -/
structure Dielectric (K : Type) where
  ir : K
deriving DecidableEq, Repr

/-- The class hierarchy under `Material`: what a `shared_ptr<Material>`
points to. -/
inductive Material (K : Type) where
  | lambertian (m : Lambertian K)
  | metal (m : Metal K)
  | dielectric (m : Dielectric K)
deriving DecidableEq, Repr

/-! ## hittable.h -/

/-- The struct `hit_record`. -/
structure hit_record (K : Type) where
  p : Vec3 K
  normal : Vec3 K
  mat_ptr : Material K
  t : K
  front_face : Bool
deriving DecidableEq, Repr

namespace hit_record

variable {K : Type} [LinearOrderedField K]

/-- The method `hit_record::set_face_normal`: it overwrites `front_face` and
`normal` of the record. -/
def set_face_normal (rec : hit_record K) (r : Ray K) (outward_normal : Vec3 K) :
    hit_record K :=
  let front_face := decide (dot r.direction outward_normal < 0)
  { rec with
    front_face := front_face
    normal := if front_face then outward_normal else -outward_normal }

end hit_record

/-! ## sphere.h -/

/-- The class `Sphere`. -/
structure Sphere (K : Type) where
  center : Vec3 K
  radius : K
  mat_ptr : Material K
deriving DecidableEq, Repr

namespace Sphere

variable {K : Type} [LinearOrderedField K]

/-- The tail of `Sphere::hit` (lines 53-60): the record written for an accepted
`root`.  The C++ writes into the caller's record; all five fields are
overwritten, `normal` and `front_face` by `set_face_normal`. -/
def fill_record (s : Sphere K) (r : Ray K) (root : K) : hit_record K :=
  let t := root
  let p := r.at t
  let outward_normal := (p - s.center) / s.radius
  hit_record.set_face_normal
    { t := t, p := p, mat_ptr := s.mat_ptr, normal := outward_normal, front_face := false }
    r outward_normal

/-- The method `Sphere::hit`; `none` is the return value `false` (the caller's
record is then untouched), `some rec` is `true` with the record written.  The
upper bound may be `⊤`, the `infinity` of `math_utils.h`. -/
def hit (sqrt : K → K) (s : Sphere K) (r : Ray K) (t_min : K) (t_max : WithTop K) :
    Option (hit_record K) :=
  let oc := r.origin - s.center
  let a := r.direction.length_squared
  let half_b := dot oc r.direction
  let c := oc.length_squared - s.radius * s.radius
  let discriminant := half_b * half_b - (a * c)
  if discriminant < 0 then none
  else
    let sqrtdis := sqrt discriminant
    let root := (-half_b - sqrtdis) / a
    if root < t_min ∨ t_max < (root : WithTop K) then
      let root := (-half_b + sqrtdis) / a
      if root < t_min ∨ t_max < (root : WithTop K) then none
      else some (s.fill_record r root)
    else some (s.fill_record r root)

/-- The local `a` of `Sphere::hit`. -/
def quad_a (r : Ray K) : K := r.direction.length_squared

/-- The local `half_b` of `Sphere::hit`. -/
def half_b (s : Sphere K) (r : Ray K) : K := dot (r.origin - s.center) r.direction

/-- The local `c` of `Sphere::hit`. -/
def quad_c (s : Sphere K) (r : Ray K) : K :=
  (r.origin - s.center).length_squared - s.radius * s.radius

/-- The local `discriminant` of `Sphere::hit`. -/
def discriminant (s : Sphere K) (r : Ray K) : K :=
  half_b s r * half_b s r - (quad_a r * quad_c s r)

/-- The first value of the local `root` of `Sphere::hit` (the smaller root). -/
def root1 (sqrt : K → K) (s : Sphere K) (r : Ray K) : K :=
  (-half_b s r - sqrt (discriminant s r)) / quad_a r

/-- The second value of the local `root` of `Sphere::hit` (the larger root). -/
def root2 (sqrt : K → K) (s : Sphere K) (r : Ray K) : K :=
  (-half_b s r + sqrt (discriminant s r)) / quad_a r

/-- The range test of `Sphere::hit`, negated: `root` is accepted. -/
def in_range (t_min : K) (t_max : WithTop K) (root : K) : Prop :=
  t_min ≤ root ∧ (root : WithTop K) ≤ t_max

end Sphere

/-! ## hittable_list.h -/

/-- The class `Hittable_list`; the only `Hittable` of the program besides the
list itself is `Sphere`. -/
structure Hittable_list (K : Type) where
  objects : List (Sphere K)
deriving DecidableEq, Repr

namespace Hittable_list

variable {K : Type} [LinearOrderedField K]

/-- The loop of `Hittable_list::hit` over the remaining objects:
`closest_so_far` is the shrinking upper bound, `rec` the caller's record once a
hit was stored (`hit_anything` is `rec.isSome`). -/
def hit_loop (sqrt : K → K) (r : Ray K) (t_min : K) :
    List (Sphere K) → WithTop K → Option (hit_record K) → Option (hit_record K)
  | [], _, rec => rec
  | object :: rest, closest_so_far, rec =>
    match object.hit sqrt r t_min closest_so_far with
    | some temp_rec => hit_loop sqrt r t_min rest (temp_rec.t : K) (some temp_rec)
    | none => hit_loop sqrt r t_min rest closest_so_far rec

/-- The method `Hittable_list::hit`. -/
def hit (sqrt : K → K) (world : Hittable_list K) (r : Ray K) (t_min : K)
    (t_max : WithTop K) : Option (hit_record K) :=
  hit_loop sqrt r t_min world.objects t_max none

end Hittable_list

/-! ## material.h: scattering -/

/-- What a call of `Material::scatter` leaves behind: the returned `bool` and
the two output arguments `attenuation` and `scattered`. -/
structure scatter_result (K : Type) where
  ok : Bool
  attenuation : Vec3 K
  scattered : Ray K
deriving DecidableEq, Repr

/-- The random values one bounce may consume: the results of the calls
`random_unit_vector()`, `random_in_unit_sphere()` and `random_double()`. -/
structure Draws (K : Type) where
  random_unit_vector : Vec3 K
  random_in_unit_sphere : Vec3 K
  random_double : K
deriving DecidableEq, Repr

namespace Lambertian

variable {K : Type} [LinearOrderedField K]

/-- The constructor `Lambertian::Lambertian`. -/
def Lambertian (a : Vec3 K) : Lambertian K := ⟨a⟩

/-- The method `Lambertian::scatter`; `random_unit_vector` is the value the call
`random_unit_vector()` returns. -/
def scatter (eps : K) (m : Raytracer.Lambertian K) (_r_in : Ray K) (rec : hit_record K)
    (random_unit_vector : Vec3 K) : scatter_result K :=
  let scatter_direction := rec.normal + random_unit_vector
  let scatter_direction :=
    if scatter_direction.near_zero eps then rec.normal else scatter_direction
  let scattered : Ray K := ⟨rec.p, scatter_direction⟩
  let attenuation := m.albedo
  ⟨true, attenuation, scattered⟩

end Lambertian

namespace Metal

variable {K : Type} [LinearOrderedField K]

/-- The constructor `Metal::Metal`, which stores `f < 1 ? f : 1` as fuzz. -/
def Metal (a : Vec3 K) (f : K) : Metal K := ⟨a, if f < 1 then f else 1⟩

/-- The method `Metal::scatter`; `random_in_unit_sphere` is the value the call
`random_in_unit_sphere()` returns. -/
def scatter (sqrt : K → K) (m : Raytracer.Metal K) (r_in : Ray K) (rec : hit_record K)
    (random_in_unit_sphere : Vec3 K) : scatter_result K :=
  let reflected := reflect (unit_vector sqrt r_in.direction) rec.normal
  let scattered : Ray K := ⟨rec.p, reflected + m.fuzz * random_in_unit_sphere⟩
  let attenuation := m.albedo
  ⟨decide (dot scattered.direction rec.normal > 0), attenuation, scattered⟩

end Metal

namespace Dielectric

variable {K : Type} [LinearOrderedField K]

/-- The constructor `Dielectric::Dielectric`. -/
def Dielectric (index_of_refraction : K) : Dielectric K := ⟨index_of_refraction⟩

/-- The private function `Dielectric::reflectance` (Schlick). -/
def reflectance (cosine ref_idx : K) : K :=
  let r0 := (1 - ref_idx) / (1 + ref_idx)
  let r0 := r0 * r0
  r0 + (1 - r0) * (1 - cosine) ^ 5

/-- The method `Dielectric::scatter`; `random_double` is the value the call
`random_double()` returns. -/
def scatter (sqrt : K → K) (m : Raytracer.Dielectric K) (r_in : Ray K) (rec : hit_record K)
    (random_double : K) : scatter_result K :=
  let attenuation : Vec3 K := ⟨1, 1, 1⟩
  let refraction_ratio := if rec.front_face then 1 / m.ir else m.ir
  let unit_direction := unit_vector sqrt r_in.direction
  let cos_theta := min (dot (-unit_direction) rec.normal) 1
  let sin_theta := sqrt (1 - cos_theta * cos_theta)
  let cannot_refract := decide (refraction_ratio * sin_theta > 1)
  let direction :=
    if cannot_refract ∨ reflectance cos_theta refraction_ratio > random_double then
      reflect unit_direction rec.normal
    else
      refract sqrt unit_direction rec.normal refraction_ratio
  let scattered : Ray K := ⟨rec.p, direction⟩
  ⟨true, attenuation, scattered⟩

end Dielectric

namespace Material

variable {K : Type} [LinearOrderedField K]

/-- The virtual call `mat_ptr->scatter(...)`, dispatched on the class of the
material; each class takes the draw it consumes from `d`. -/
def scatter (sqrt : K → K) (eps : K) (d : Draws K) (m : Material K) (r_in : Ray K)
    (rec : hit_record K) : scatter_result K :=
  match m with
  | lambertian l => Lambertian.scatter eps l r_in rec d.random_unit_vector
  | metal l => Metal.scatter sqrt l r_in rec d.random_in_unit_sphere
  | dielectric l => Dielectric.scatter sqrt l r_in rec d.random_double

end Material

/-! ## main.cpp -/

section Main

variable {K : Type} [LinearOrderedField K]

/-- The function `ray_color` of `main.cpp`.  `draws n` holds the random values
of the `n`-th bounce from here; the recursive call sees the later ones. -/
def ray_color (sqrt : K → K) (eps : K) (draws : Nat → Draws K) (r : Ray K)
    (world : Hittable_list K) (depth : Int) : Vec3 K :=
  if depth ≤ 0 then ⟨0, 0, 0⟩
  else
    match world.hit sqrt r 0.001 ⊤ with
    | some rec =>
      let res := rec.mat_ptr.scatter sqrt eps (draws 0) r rec
      if res.ok then
        res.attenuation * ray_color sqrt eps (fun n => draws (n + 1)) res.scattered world (depth - 1)
      else ⟨0, 0, 0⟩
    | none =>
      let unit_direction := unit_vector sqrt r.direction
      let t := 0.5 * (unit_direction.y + 1.0)
      (1.0 - t) * (⟨1.0, 1.0, 1.0⟩ : Vec3 K) + t * (⟨0.5, 0.7, 1.0⟩ : Vec3 K)
termination_by depth.toNat
decreasing_by omega

end Main

/-! ## camera.h -/

/-- The class `Camera`. -/
structure Camera (K : Type) where
  origin : Vec3 K
  lower_left_corner : Vec3 K
  horizontal : Vec3 K
  vertical : Vec3 K
  u : Vec3 K
  v : Vec3 K
  w : Vec3 K
  lens_radius : K
deriving DecidableEq, Repr

namespace Camera

variable {K : Type} [LinearOrderedField K]

/-- The constructor `Camera::Camera`; `tan` is the tangent of `<cmath>`. -/
def Camera (sqrt : K → K) (tan : K → K) (lookfrom lookat vup : Vec3 K)
    (vfov aspect_ratio aperture focus_dist : K) : Camera K :=
  let theta := degrees_to_radians vfov
  let h := tan (theta / 2)
  let viewport_height := 2.0 * h
  let viewport_width := aspect_ratio * viewport_height
  let w := unit_vector sqrt (lookfrom - lookat)
  let u := unit_vector sqrt (cross vup w)
  let v := cross w u
  let origin := lookfrom
  let horizontal := (focus_dist * viewport_width) * u
  let vertical := (focus_dist * viewport_height) * v
  let lower_left_corner := origin - horizontal / (2 : K) - vertical / (2 : K) - focus_dist * w
  let lens_radius := aperture / 2
  { origin := origin, lower_left_corner := lower_left_corner, horizontal := horizontal,
    vertical := vertical, u := u, v := v, w := w, lens_radius := lens_radius }

/-- The method `Camera::get_ray`; `random_in_unit_disk` is the value the call
`random_in_unit_disk()` returns. -/
def get_ray (cam : Raytracer.Camera K) (s t : K) (random_in_unit_disk : Vec3 K) : Ray K :=
  let rd := cam.lens_radius * random_in_unit_disk
  let offset := cam.u * rd.x + cam.v * rd.y
  ⟨cam.origin + offset,
    cam.lower_left_corner + s * cam.horizontal + t * cam.vertical - cam.origin - offset⟩

end Camera

/-! ## main.cpp: `ray_color` with its work counted -/

section Counting

variable {K : Type} [LinearOrderedField K]

/-- What one call of `ray_color` amounts to: the colour it returns, the number of
calls of `world.hit` it and its recursive calls make, and the number of recursive
calls of `ray_color` nested below it. -/
structure ray_color_run (K : Type) where
  colour : Vec3 K
  hits : Nat
  calls : Nat
deriving DecidableEq, Repr

/-- The function `ray_color` of `main.cpp`, run with a bound `fuel` on the number
of nested activations: every activation takes one unit, and `none` means the
bound was reached before the outer call returned. -/
def ray_color_fuel (sqrt : K → K) (eps : K) (world : Hittable_list K) :
    Nat → (Nat → Draws K) → Ray K → Int → Option (ray_color_run K)
  | 0, _, _, _ => none
  | fuel + 1, draws, r, depth =>
    if depth ≤ 0 then some ⟨⟨0, 0, 0⟩, 0, 0⟩
    else
      match world.hit sqrt r 0.001 ⊤ with
      | some rec =>
        let res := rec.mat_ptr.scatter sqrt eps (draws 0) r rec
        if res.ok then
          match ray_color_fuel sqrt eps world fuel (fun n => draws (n + 1)) res.scattered
              (depth - 1) with
          | some inner => some ⟨res.attenuation * inner.colour, inner.hits + 1, inner.calls + 1⟩
          | none => none
        else some ⟨⟨0, 0, 0⟩, 1, 0⟩
      | none =>
        let unit_direction := unit_vector sqrt r.direction
        let t := 0.5 * (unit_direction.y + 1.0)
        some ⟨(1.0 - t) * (⟨1.0, 1.0, 1.0⟩ : Vec3 K) + t * (⟨0.5, 0.7, 1.0⟩ : Vec3 K), 1, 0⟩

end Counting

/-! ## The colour range of the radiance bound -/

section Range

variable {K : Type} [LinearOrderedField K]

/-- All three components of a colour lie in `[0,1]`. -/
def Vec3.in_unit_range (v : Vec3 K) : Prop :=
  (0 ≤ v.x ∧ v.x ≤ 1) ∧ (0 ≤ v.y ∧ v.y ≤ 1) ∧ (0 ≤ v.z ∧ v.z ≤ 1)

/-- The albedo of a Lambertian or Metal material has all components in `[0,1]`;
a Dielectric has no albedo. -/
def Material.albedo_in_unit_range : Material K → Prop
  | Material.lambertian m => m.albedo.in_unit_range
  | Material.metal m => m.albedo.in_unit_range
  | Material.dielectric _ => True

end Range

/-! ## Concrete inputs -/

section Examples

variable {K : Type} [LinearOrderedField K]

/-- A matte grey material. -/
def example_material : Material K := Material.lambertian ⟨⟨0.5, 0.5, 0.5⟩⟩

/-- The unit sphere at the origin. -/
def example_sphere : Sphere K := ⟨⟨0, 0, 0⟩, 1, example_material⟩

/-- A unit glass sphere behind `example_sphere`. -/
def far_sphere : Sphere K := ⟨⟨0, 0, 4⟩, 1, Material.dielectric ⟨1.5⟩⟩

/-- A scene that lists the farther sphere first. -/
def example_world : Hittable_list K := ⟨[far_sphere, example_sphere]⟩

/-- A ray from `(0,0,-3)` through the centres of both spheres. -/
def example_ray : Ray K := ⟨⟨0, 0, -3⟩, ⟨0, 0, 1⟩⟩

/-- The record of `example_ray` on `example_sphere`. -/
def example_rec : hit_record K := ⟨⟨0, 0, -1⟩, ⟨0, 0, -1⟩, example_material, 2, true⟩

/-- The record of `example_ray` on `far_sphere`. -/
def far_rec : hit_record K := ⟨⟨0, 0, 3⟩, ⟨0, 0, -1⟩, Material.dielectric ⟨1.5⟩, 6, true⟩

/-- A ray from `(0,0,-3)` that leaves the spheres behind. -/
def away_ray : Ray K := ⟨⟨0, 0, -3⟩, ⟨0, 0, -1⟩⟩

/-- A ray that touches `example_sphere` in the single point `(0,1,0)`. -/
def tangent_ray : Ray K := ⟨⟨-1, 1, 0⟩, ⟨1, 0, 0⟩⟩

/-- The record of `tangent_ray` on `example_sphere`. -/
def tangent_rec : hit_record K := ⟨⟨0, 1, 0⟩, ⟨0, -1, 0⟩, example_material, 1, false⟩

/-- A ray that meets the plane `y = 0` obliquely, with unit direction. -/
def oblique_ray : Ray K := ⟨⟨-3, 4, 0⟩, ⟨3 / 5, -4 / 5, 0⟩⟩

/-- A front-face record at the origin with normal `(0,1,0)` on a matched-index
dielectric. -/
def oblique_rec : hit_record K := ⟨⟨0, 0, 0⟩, ⟨0, 1, 0⟩, Material.dielectric ⟨1⟩, 5, true⟩

/-- Constant random draws. -/
def example_draws : Nat → Draws K := fun _ => ⟨⟨0, 1, 0⟩, ⟨0, 0, 0⟩, 0⟩

/-- A glass sphere with the geometry of `example_sphere`. -/
def twin_sphere : Sphere K := ⟨⟨0, 0, 0⟩, 1, Material.dielectric ⟨1.5⟩⟩

/-- The record of `example_ray` on `twin_sphere`. -/
def twin_rec : hit_record K := ⟨⟨0, 0, -1⟩, ⟨0, 0, -1⟩, Material.dielectric ⟨1.5⟩, 2, true⟩

/-- A scene of two coincident spheres, the matte one listed first. -/
def twin_world : Hittable_list K := ⟨[example_sphere, twin_sphere]⟩

/-- A ray from `(0,0,-3)` through the centre of `example_sphere` whose direction
has length 2. -/
def double_ray : Ray K := ⟨⟨0, 0, -3⟩, ⟨0, 0, 2⟩⟩

/-- The record of `example_ray` on `example_sphere` at the far root. -/
def back_rec : hit_record K := ⟨⟨0, 0, 1⟩, ⟨0, 0, -1⟩, example_material, 4, false⟩

/-- The scene of the end-to-end test: one Lambertian sphere of radius 0.5 at the
origin with albedo `a`. -/
def single_sphere_world (a : Vec3 K) : Hittable_list K :=
  ⟨[⟨⟨0, 0, 0⟩, 0.5, Material.lambertian (Lambertian.Lambertian a)⟩]⟩

/-- The camera of the end-to-end test: at `(0,0,2)`, looking at the origin, up
`(0,1,0)`, aperture 0. -/
def axis_camera (sqrt tan : K → K) (vfov aspect_ratio focus_dist : K) : Camera K :=
  Camera.Camera sqrt tan ⟨0, 0, 2⟩ ⟨0, 0, 0⟩ ⟨0, 1, 0⟩ vfov aspect_ratio 0 focus_dist

end Examples

/-! ## Component-wise reading of the vector operations -/

section Components

variable {K : Type} [LinearOrderedField K]

@[simp] theorem Vec3.add_x (u v : Vec3 K) : (u + v).x = u.x + v.x := rfl
@[simp] theorem Vec3.add_y (u v : Vec3 K) : (u + v).y = u.y + v.y := rfl
@[simp] theorem Vec3.add_z (u v : Vec3 K) : (u + v).z = u.z + v.z := rfl
@[simp] theorem Vec3.sub_x (u v : Vec3 K) : (u - v).x = u.x - v.x := rfl
@[simp] theorem Vec3.sub_y (u v : Vec3 K) : (u - v).y = u.y - v.y := rfl
@[simp] theorem Vec3.sub_z (u v : Vec3 K) : (u - v).z = u.z - v.z := rfl
@[simp] theorem Vec3.neg_x (v : Vec3 K) : (-v).x = -v.x := rfl
@[simp] theorem Vec3.neg_y (v : Vec3 K) : (-v).y = -v.y := rfl
@[simp] theorem Vec3.neg_z (v : Vec3 K) : (-v).z = -v.z := rfl
@[simp] theorem Vec3.smul_x (t : K) (v : Vec3 K) : (t * v).x = t * v.x := rfl
@[simp] theorem Vec3.smul_y (t : K) (v : Vec3 K) : (t * v).y = t * v.y := rfl
@[simp] theorem Vec3.smul_z (t : K) (v : Vec3 K) : (t * v).z = t * v.z := rfl
@[simp] theorem Vec3.muls_x (v : Vec3 K) (t : K) : (v * t).x = t * v.x := rfl
@[simp] theorem Vec3.muls_y (v : Vec3 K) (t : K) : (v * t).y = t * v.y := rfl
@[simp] theorem Vec3.muls_z (v : Vec3 K) (t : K) : (v * t).z = t * v.z := rfl
@[simp] theorem Vec3.mul_x (u v : Vec3 K) : (u * v).x = u.x * v.x := rfl
@[simp] theorem Vec3.mul_y (u v : Vec3 K) : (u * v).y = u.y * v.y := rfl
@[simp] theorem Vec3.mul_z (u v : Vec3 K) : (u * v).z = u.z * v.z := rfl
@[simp] theorem Vec3.div_x (v : Vec3 K) (t : K) : (v / t).x = v.x / t := rfl
@[simp] theorem Vec3.div_y (v : Vec3 K) (t : K) : (v / t).y = v.y / t := rfl
@[simp] theorem Vec3.div_z (v : Vec3 K) (t : K) : (v / t).z = v.z / t := rfl

end Components

/-! ## The quadratic of `Sphere::hit` -/

section SphereLemmas

variable {K : Type} [LinearOrderedField K]

theorem Sphere.hit_eq (sqrt : K → K) (s : Sphere K) (r : Ray K) (t_min : K) (t_max : WithTop K) :
    s.hit sqrt r t_min t_max =
      if Sphere.discriminant s r < 0 then none
      else if Sphere.root1 sqrt s r < t_min ∨ t_max < ((Sphere.root1 sqrt s r : K) : WithTop K) then
        if Sphere.root2 sqrt s r < t_min ∨ t_max < ((Sphere.root2 sqrt s r : K) : WithTop K) then none
        else some (s.fill_record r (Sphere.root2 sqrt s r))
      else some (s.fill_record r (Sphere.root1 sqrt s r)) := rfl

theorem Sphere.not_rejected_iff (t_min : K) (t_max : WithTop K) (root : K) :
    ¬ (root < t_min ∨ t_max < (root : WithTop K)) ↔ Sphere.in_range t_min t_max root := by
  unfold Sphere.in_range
  rw [not_or, not_lt, not_lt]

theorem Sphere.quad_a_pos (r : Ray K) (hdir : r.direction ≠ ⟨0, 0, 0⟩) : 0 < Sphere.quad_a r := by
  unfold Sphere.quad_a length_squared
  have hx := mul_self_nonneg r.direction.x
  have hy := mul_self_nonneg r.direction.y
  have hz := mul_self_nonneg r.direction.z
  rcases lt_or_eq_of_le (add_nonneg (add_nonneg hx hy) hz) with h | h
  · exact h
  · exfalso
    apply hdir
    have h1 : r.direction.x * r.direction.x = 0 := by linarith
    have h2 : r.direction.y * r.direction.y = 0 := by linarith
    have h3 : r.direction.z * r.direction.z = 0 := by linarith
    ext
    · exact mul_self_eq_zero.mp h1
    · exact mul_self_eq_zero.mp h2
    · exact mul_self_eq_zero.mp h3

/-- The distance equation along the ray is the quadratic of `Sphere::hit`. -/
theorem Sphere.at_quadratic (s : Sphere K) (r : Ray K) (t : K) :
    (r.at t - s.center).length_squared - s.radius * s.radius =
      Sphere.quad_a r * t ^ 2 + 2 * Sphere.half_b s r * t + Sphere.quad_c s r := by
  simp only [Sphere.quad_a, Sphere.half_b, Sphere.quad_c, Ray.at, Ray.origin, Ray.direction,
    length_squared, dot, Vec3.add_x, Vec3.add_y, Vec3.add_z, Vec3.sub_x, Vec3.sub_y, Vec3.sub_z,
    Vec3.smul_x, Vec3.smul_y, Vec3.smul_z]
  ring

theorem Sphere.quadratic_factor (sqrt : K → K) (hsqrt : IsSqrt sqrt) (s : Sphere K) (r : Ray K)
    (ha : 0 < Sphere.quad_a r) (hd : 0 ≤ Sphere.discriminant s r) (t : K) :
    Sphere.quad_a r * t ^ 2 + 2 * Sphere.half_b s r * t + Sphere.quad_c s r =
      Sphere.quad_a r * ((t - Sphere.root1 sqrt s r) * (t - Sphere.root2 sqrt s r)) := by
  obtain ⟨_, hq⟩ := hsqrt _ hd
  have hne : Sphere.quad_a r ≠ 0 := ne_of_gt ha
  have hc : Sphere.quad_a r * Sphere.quad_c s r =
      Sphere.half_b s r * Sphere.half_b s r
        - sqrt (Sphere.discriminant s r) * sqrt (Sphere.discriminant s r) := by
    rw [hq]; unfold Sphere.discriminant; ring
  unfold Sphere.root1 Sphere.root2
  field_simp
  linear_combination (Sphere.quad_a r) * hc

theorem Sphere.root1_le_root2 (sqrt : K → K) (hsqrt : IsSqrt sqrt) (s : Sphere K) (r : Ray K)
    (ha : 0 < Sphere.quad_a r) (hd : 0 ≤ Sphere.discriminant s r) :
    Sphere.root1 sqrt s r ≤ Sphere.root2 sqrt s r := by
  obtain ⟨h0, _⟩ := hsqrt _ hd
  unfold Sphere.root1 Sphere.root2
  apply div_le_div_of_nonneg_right _ (le_of_lt ha)
  linarith

theorem Sphere.quadratic_pos_of_discriminant_neg (s : Sphere K) (r : Ray K)
    (ha : 0 < Sphere.quad_a r) (hd : Sphere.discriminant s r < 0) (t : K) :
    0 < Sphere.quad_a r * t ^ 2 + 2 * Sphere.half_b s r * t + Sphere.quad_c s r := by
  have h1 : 0 < Sphere.quad_a r *
      (Sphere.quad_a r * t ^ 2 + 2 * Sphere.half_b s r * t + Sphere.quad_c s r) := by
    have h2 := sq_nonneg (Sphere.quad_a r * t + Sphere.half_b s r)
    unfold Sphere.discriminant at hd
    nlinarith
  exact (mul_pos_iff_of_pos_left ha).1 h1


@[simp] theorem Sphere.fill_record_t (s : Sphere K) (r : Ray K) (root : K) :
    (s.fill_record r root).t = root := rfl

@[simp] theorem Sphere.fill_record_p (s : Sphere K) (r : Ray K) (root : K) :
    (s.fill_record r root).p = r.at root := rfl

@[simp] theorem Sphere.fill_record_mat_ptr (s : Sphere K) (r : Ray K) (root : K) :
    (s.fill_record r root).mat_ptr = s.mat_ptr := rfl

theorem Sphere.hit_some_iff (sqrt : K → K) (s : Sphere K) (r : Ray K) (t_min : K)
    (t_max : WithTop K) (rec : hit_record K) :
    s.hit sqrt r t_min t_max = some rec ↔
      0 ≤ Sphere.discriminant s r ∧
        ((Sphere.in_range t_min t_max (Sphere.root1 sqrt s r) ∧
            rec = s.fill_record r (Sphere.root1 sqrt s r)) ∨
          (¬ Sphere.in_range t_min t_max (Sphere.root1 sqrt s r) ∧
            Sphere.in_range t_min t_max (Sphere.root2 sqrt s r) ∧
            rec = s.fill_record r (Sphere.root2 sqrt s r))) := by
  rw [Sphere.hit_eq, ← Sphere.not_rejected_iff, ← Sphere.not_rejected_iff]
  by_cases hd : Sphere.discriminant s r < 0
  · simp [hd, not_le.mpr hd]
  · by_cases h1 : Sphere.root1 sqrt s r < t_min ∨ t_max < ((Sphere.root1 sqrt s r : K) : WithTop K)
    · by_cases h2 : Sphere.root2 sqrt s r < t_min ∨
          t_max < ((Sphere.root2 sqrt s r : K) : WithTop K)
      · simp [hd, h1, h2, not_lt.mp hd]
      · simp [hd, h1, h2, not_lt.mp hd, eq_comm]
    · simp [hd, h1, not_lt.mp hd, eq_comm]

theorem Sphere.hit_none_iff (sqrt : K → K) (s : Sphere K) (r : Ray K) (t_min : K)
    (t_max : WithTop K) :
    s.hit sqrt r t_min t_max = none ↔
      Sphere.discriminant s r < 0 ∨
        (¬ Sphere.in_range t_min t_max (Sphere.root1 sqrt s r) ∧
          ¬ Sphere.in_range t_min t_max (Sphere.root2 sqrt s r)) := by
  rw [Sphere.hit_eq, ← Sphere.not_rejected_iff, ← Sphere.not_rejected_iff]
  by_cases hd : Sphere.discriminant s r < 0
  · simp [hd]
  · by_cases h1 : Sphere.root1 sqrt s r < t_min ∨ t_max < ((Sphere.root1 sqrt s r : K) : WithTop K)
    · by_cases h2 : Sphere.root2 sqrt s r < t_min ∨
          t_max < ((Sphere.root2 sqrt s r : K) : WithTop K)
      · simp [hd, h1, h2]
      · simp [hd, h1, h2]
    · simp [hd, h1]

/-- The roots of the quadratic of `Sphere::hit` are `root1` and `root2`. -/
theorem Sphere.quadratic_eq_zero_iff (sqrt : K → K) (hsqrt : IsSqrt sqrt) (s : Sphere K)
    (r : Ray K) (ha : 0 < Sphere.quad_a r) (t : K) :
    Sphere.quad_a r * t ^ 2 + 2 * Sphere.half_b s r * t + Sphere.quad_c s r = 0 ↔
      0 ≤ Sphere.discriminant s r ∧
        (t = Sphere.root1 sqrt s r ∨ t = Sphere.root2 sqrt s r) := by
  constructor
  · intro h
    have hd : 0 ≤ Sphere.discriminant s r := by
      by_contra hneg
      have := Sphere.quadratic_pos_of_discriminant_neg s r ha (not_le.mp hneg) t
      linarith
    refine ⟨hd, ?_⟩
    rw [Sphere.quadratic_factor sqrt hsqrt s r ha hd t] at h
    rcases mul_eq_zero.mp h with h | h
    · exact absurd h (ne_of_gt ha)
    · rcases mul_eq_zero.mp h with h | h
      · exact Or.inl (sub_eq_zero.mp h)
      · exact Or.inr (sub_eq_zero.mp h)
  · rintro ⟨hd, h | h⟩
    · rw [Sphere.quadratic_factor sqrt hsqrt s r ha hd t, h]; simp
    · rw [Sphere.quadratic_factor sqrt hsqrt s r ha hd t, h]; simp

end SphereLemmas

/-! ## The loop of Hittable_list::hit -/

section ListLemmas

variable {K : Type} [LinearOrderedField K]

theorem Sphere.in_range_mono {t_min : K} {c t_max : WithTop K} (hc : c ≤ t_max) {root : K}
    (h : Sphere.in_range t_min c root) : Sphere.in_range t_min t_max root :=
  ⟨h.1, le_trans h.2 hc⟩

/-- Shrinking the upper bound only filters the hit a sphere reports. -/
theorem Sphere.hit_shrink (sqrt : K → K) (hsqrt : IsSqrt sqrt) (s : Sphere K) (r : Ray K)
    (hdir : r.direction ≠ ⟨0, 0, 0⟩) (t_min : K) (c t_max : WithTop K) (hc : c ≤ t_max)
    (rec : hit_record K) :
    s.hit sqrt r t_min c = some rec ↔
      s.hit sqrt r t_min t_max = some rec ∧ (rec.t : WithTop K) ≤ c := by
  have ha := Sphere.quad_a_pos r hdir
  rw [Sphere.hit_some_iff, Sphere.hit_some_iff]
  constructor
  · rintro ⟨hd, ⟨h1, hrec⟩ | ⟨h1, h2, hrec⟩⟩
    · exact ⟨⟨hd, Or.inl ⟨Sphere.in_range_mono hc h1, hrec⟩⟩, by rw [hrec]; exact h1.2⟩
    · refine ⟨⟨hd, Or.inr ⟨?_, Sphere.in_range_mono hc h2, hrec⟩⟩, by rw [hrec]; exact h2.2⟩
      intro h
      apply h1
      refine ⟨h.1, le_trans ?_ h2.2⟩
      exact WithTop.coe_le_coe.mpr (Sphere.root1_le_root2 sqrt hsqrt s r ha hd)
  · rintro ⟨⟨hd, ⟨h1, hrec⟩ | ⟨h1, h2, hrec⟩⟩, hle⟩
    · rw [hrec] at hle
      exact ⟨hd, Or.inl ⟨⟨h1.1, hle⟩, hrec⟩⟩
    · rw [hrec] at hle
      exact ⟨hd, Or.inr ⟨fun h => h1 (Sphere.in_range_mono hc h), ⟨h2.1, hle⟩, hrec⟩⟩

theorem Sphere.hit_t_le (sqrt : K → K) (s : Sphere K) (r : Ray K) (t_min : K)
    (t_max : WithTop K) (rec : hit_record K) (h : s.hit sqrt r t_min t_max = some rec) :
    (rec.t : WithTop K) ≤ t_max := by
  obtain ⟨_, ⟨h1, hrec⟩ | ⟨_, h2, hrec⟩⟩ := (Sphere.hit_some_iff sqrt s r t_min t_max rec).mp h
  · rw [hrec]; exact h1.2
  · rw [hrec]; exact h2.2

/-- The loop of `Hittable_list::hit`: it ends without a record only when it
started without one and no remaining member hits below the bound. -/
theorem Hittable_list.hit_loop_none_iff (sqrt : K → K) (r : Ray K) (t_min : K)
    (l : List (Sphere K)) (c : WithTop K) (acc : Option (hit_record K)) :
    Hittable_list.hit_loop sqrt r t_min l c acc = none ↔
      acc = none ∧ ∀ s ∈ l, s.hit sqrt r t_min c = none := by
  induction l generalizing c acc with
  | nil => simp [Hittable_list.hit_loop]
  | cons s rest ih =>
    rw [Hittable_list.hit_loop]
    cases hs : s.hit sqrt r t_min c with
    | none => simp [ih, hs]
    | some temp => simp [ih, hs]

/-- The loop of `Hittable_list::hit`: the record it ends with is the starting
one or one a member reports on the full range, and no member reports a
smaller `t` below the bound. -/
theorem Hittable_list.hit_loop_some (sqrt : K → K) (hsqrt : IsSqrt sqrt) (r : Ray K)
    (hdir : r.direction ≠ ⟨0, 0, 0⟩) (t_min : K) (t_max : WithTop K)
    (l : List (Sphere K)) (c : WithTop K) (acc : Option (hit_record K)) (hc : c ≤ t_max)
    (hacc : ∀ rec0, acc = some rec0 → (rec0.t : WithTop K) ≤ c) (rec : hit_record K)
    (h : Hittable_list.hit_loop sqrt r t_min l c acc = some rec) :
    (rec.t : WithTop K) ≤ c ∧
      (acc = some rec ∨ ∃ s ∈ l, s.hit sqrt r t_min t_max = some rec) ∧
      ∀ s ∈ l, ∀ rec1, s.hit sqrt r t_min t_max = some rec1 → (rec1.t : WithTop K) ≤ c →
        rec.t ≤ rec1.t := by
  induction l generalizing c acc with
  | nil =>
    simp only [Hittable_list.hit_loop] at h
    exact ⟨hacc rec h, Or.inl h, by simp⟩
  | cons s rest ih =>
    rw [Hittable_list.hit_loop] at h
    cases hs : s.hit sqrt r t_min c with
    | none =>
      rw [hs] at h
      obtain ⟨h1, h2, h3⟩ := ih c acc hc hacc h
      refine ⟨h1, ?_, ?_⟩
      · rcases h2 with h2 | ⟨s1, hs1, h2⟩
        · exact Or.inl h2
        · exact Or.inr ⟨s1, List.mem_cons_of_mem _ hs1, h2⟩
      · intro s1 hs1 rec1 hrec1 hle
        rcases List.mem_cons.mp hs1 with rfl | hs1
        · have := (Sphere.hit_shrink sqrt hsqrt s1 r hdir t_min c t_max hc rec1).mpr ⟨hrec1, hle⟩
          rw [hs] at this
          exact absurd this (by simp)
        · exact h3 s1 hs1 rec1 hrec1 hle
    | some temp =>
      rw [hs] at h
      obtain ⟨hfull, htle⟩ := (Sphere.hit_shrink sqrt hsqrt s r hdir t_min c t_max hc temp).mp hs
      obtain ⟨h1, h2, h3⟩ := ih (temp.t : K) (some temp) (le_trans htle hc)
        (fun rec0 h0 => by rw [Option.some.inj h0]) h
      refine ⟨le_trans h1 htle, ?_, ?_⟩
      · rcases h2 with h2 | ⟨s1, hs1, h2⟩
        · exact Or.inr ⟨s, List.mem_cons_self _ _, by rw [← Option.some.inj h2]; exact hfull⟩
        · exact Or.inr ⟨s1, List.mem_cons_of_mem _ hs1, h2⟩
      · intro s1 hs1 rec1 hrec1 hle
        rcases List.mem_cons.mp hs1 with rfl | hs1
        · rw [hfull] at hrec1
          rw [← Option.some.inj hrec1]
          exact WithTop.coe_le_coe.mp h1
        · rcases le_or_lt rec1.t temp.t with hlt | hlt
          · exact h3 s1 hs1 rec1 hrec1 (WithTop.coe_le_coe.mpr hlt)
          · exact le_trans (WithTop.coe_le_coe.mp h1) (le_of_lt hlt)


theorem Hittable_list.hit_isSome_iff (sqrt : K → K) (world : Hittable_list K) (r : Ray K)
    (t_min : K) (t_max : WithTop K) :
    (world.hit sqrt r t_min t_max).isSome ↔
      ∃ s ∈ world.objects, (s.hit sqrt r t_min t_max).isSome := by
  have h := Hittable_list.hit_loop_none_iff sqrt r t_min world.objects t_max none
  unfold Hittable_list.hit
  rw [← not_iff_not, Option.not_isSome_iff_eq_none, h]
  simp

theorem Hittable_list.hit_min (sqrt : K → K) (hsqrt : IsSqrt sqrt) (world : Hittable_list K)
    (r : Ray K) (hdir : r.direction ≠ ⟨0, 0, 0⟩) (t_min : K) (t_max : WithTop K)
    (rec : hit_record K) (h : world.hit sqrt r t_min t_max = some rec) :
    (∃ s ∈ world.objects, s.hit sqrt r t_min t_max = some rec) ∧
      ∀ s ∈ world.objects, ∀ rec1, s.hit sqrt r t_min t_max = some rec1 → rec.t ≤ rec1.t := by
  obtain ⟨_, h2, h3⟩ := Hittable_list.hit_loop_some sqrt hsqrt r hdir t_min t_max
    world.objects t_max none le_rfl (by simp) rec h
  refine ⟨?_, ?_⟩
  · rcases h2 with h2 | h2
    · exact absurd h2 (by simp)
    · exact h2
  · intro s hs rec1 hrec1
    exact h3 s hs rec1 hrec1 (Sphere.hit_t_le sqrt s r t_min t_max rec1 hrec1)

end ListLemmas

/-! ## The face normal -/

section NormalLemmas

variable {K : Type} [LinearOrderedField K]

theorem IsSqrt.sqrt_one {sqrt : K → K} (hsqrt : IsSqrt sqrt) : sqrt 1 = 1 := by
  obtain ⟨h0, h1⟩ := hsqrt 1 zero_le_one
  have h : (sqrt 1 - 1) * (sqrt 1 + 1) = 0 := by linear_combination h1
  rcases mul_eq_zero.mp h with h | h
  · exact sub_eq_zero.mp h
  · linarith

theorem Vec3.length_squared_neg (v : Vec3 K) : (-v).length_squared = v.length_squared := by
  simp only [length_squared, Vec3.neg_x, Vec3.neg_y, Vec3.neg_z]
  ring

theorem Vec3.length_squared_div (v : Vec3 K) (t : K) :
    (v / t).length_squared = v.length_squared / (t * t) := by
  simp only [length_squared, Vec3.div_x, Vec3.div_y, Vec3.div_z]
  by_cases ht : t = 0
  · simp [ht]
  · field_simp

theorem Vec3.dot_neg_right (u v : Vec3 K) : dot u (-v) = -dot u v := by
  simp only [dot, Vec3.neg_x, Vec3.neg_y, Vec3.neg_z]
  ring

@[simp] theorem hit_record.set_face_normal_front_face (rec : hit_record K) (r : Ray K)
    (outward_normal : Vec3 K) :
    (rec.set_face_normal r outward_normal).front_face =
      decide (dot r.direction outward_normal < 0) := rfl

@[simp] theorem hit_record.set_face_normal_normal (rec : hit_record K) (r : Ray K)
    (outward_normal : Vec3 K) :
    (rec.set_face_normal r outward_normal).normal =
      if dot r.direction outward_normal < 0 then outward_normal else -outward_normal := by
  simp [hit_record.set_face_normal]

/-- After `set_face_normal` the normal has the length of the outward normal and
does not point along the ray; it points strictly against the ray exactly when
the outward normal is not perpendicular to the ray. -/
theorem hit_record.set_face_normal_spec (rec : hit_record K) (r : Ray K)
    (outward_normal : Vec3 K) :
    (rec.set_face_normal r outward_normal).normal.length_squared =
        outward_normal.length_squared ∧
      dot r.direction (rec.set_face_normal r outward_normal).normal ≤ 0 ∧
      (dot r.direction (rec.set_face_normal r outward_normal).normal < 0 ↔
        dot r.direction outward_normal ≠ 0) := by
  rw [hit_record.set_face_normal_normal]
  by_cases h : dot r.direction outward_normal < 0
  · rw [if_pos h]
    exact ⟨rfl, le_of_lt h, fun _ => ne_of_lt h, fun _ => h⟩
  · rw [if_neg h, Vec3.length_squared_neg, Vec3.dot_neg_right]
    have h' := not_lt.mp h
    refine ⟨rfl, by linarith, ?_, ?_⟩
    · intro h1 h2
      rw [h2] at h1
      simp at h1
    · intro h1
      rcases lt_or_eq_of_le h' with h2 | h2
      · linarith
      · exact absurd h2.symm h1

theorem Sphere.fill_record_normal (s : Sphere K) (r : Ray K) (root : K) :
    (s.fill_record r root).normal =
      (hit_record.set_face_normal (s.fill_record r root) r
        ((r.at root - s.center) / s.radius)).normal := by
  simp [Sphere.fill_record]

/-- Every record of `Sphere::hit` is the filled record of a root of the
quadratic. -/
theorem Sphere.hit_some_root (sqrt : K → K) (hsqrt : IsSqrt sqrt) (s : Sphere K) (r : Ray K)
    (hdir : r.direction ≠ ⟨0, 0, 0⟩) (t_min : K) (t_max : WithTop K) (rec : hit_record K)
    (h : s.hit sqrt r t_min t_max = some rec) :
    rec = s.fill_record r rec.t ∧
      ((r.at rec.t) - s.center).length_squared = s.radius * s.radius := by
  have ha := Sphere.quad_a_pos r hdir
  obtain ⟨hd, hcase⟩ := (Sphere.hit_some_iff sqrt s r t_min t_max rec).mp h
  have hrec : rec = s.fill_record r rec.t := by
    rcases hcase with ⟨_, hrec⟩ | ⟨_, _, hrec⟩
    · rw [hrec]; rfl
    · rw [hrec]; rfl
  refine ⟨hrec, ?_⟩
  have hroot : Sphere.quad_a r * rec.t ^ 2 + 2 * Sphere.half_b s r * rec.t
      + Sphere.quad_c s r = 0 := by
    rw [Sphere.quadratic_eq_zero_iff sqrt hsqrt s r ha]
    rcases hcase with ⟨_, hrec⟩ | ⟨_, _, hrec⟩
    · exact ⟨hd, Or.inl (by rw [hrec]; rfl)⟩
    · exact ⟨hd, Or.inr (by rw [hrec]; rfl)⟩
  have := Sphere.at_quadratic s r rec.t
  rw [hroot] at this
  exact sub_eq_zero.mp this

end NormalLemmas

/-! ## The base cases of ray_color -/

section RayColorLemmas

variable {K : Type} [LinearOrderedField K]

theorem IsSqrt.sqrt_mul_self {sqrt : K → K} (hsqrt : IsSqrt sqrt) {k : K} (hk : 0 ≤ k) :
    sqrt (k * k) = k := by
  obtain ⟨h0, h1⟩ := hsqrt (k * k) (mul_self_nonneg k)
  have h : (sqrt (k * k) - k) * (sqrt (k * k) + k) = 0 := by linear_combination h1
  rcases mul_eq_zero.mp h with h | h
  · exact sub_eq_zero.mp h
  · have h2 : sqrt (k * k) = 0 := by linarith
    have h3 : k = 0 := by linarith
    rw [h2, h3]

theorem Hittable_list.hit_nil (sqrt : K → K) (r : Ray K) (t_min : K) (t_max : WithTop K) :
    Hittable_list.hit sqrt ⟨[]⟩ r t_min t_max = none := rfl

/-- The miss branch of `ray_color`: the sky gradient. -/
theorem ray_color_of_miss (sqrt : K → K) (eps : K) (draws : Nat → Draws K) (r : Ray K)
    (world : Hittable_list K) (depth : Int) (hdepth : 0 < depth)
    (hmiss : world.hit sqrt r 0.001 ⊤ = none) :
    ray_color sqrt eps draws r world depth =
      (1.0 - 0.5 * ((unit_vector sqrt r.direction).y + 1.0)) * (⟨1.0, 1.0, 1.0⟩ : Vec3 K)
        + (0.5 * ((unit_vector sqrt r.direction).y + 1.0)) * (⟨0.5, 0.7, 1.0⟩ : Vec3 K) := by
  rw [ray_color]
  simp only [not_le.mpr hdepth, if_false, hmiss]

end RayColorLemmas

/-! ## Vector facts for the materials -/

section MaterialLemmas

variable {K : Type} [LinearOrderedField K]

theorem IsSqrt.sqrt_pos {sqrt : K → K} (hsqrt : IsSqrt sqrt) {x : K} (hx : 0 < x) :
    0 < sqrt x := by
  obtain ⟨h0, h1⟩ := hsqrt x (le_of_lt hx)
  rcases lt_or_eq_of_le h0 with h | h
  · exact h
  · rw [← h] at h1
    simp at h1
    exact absurd h1.symm (ne_of_gt hx)

theorem IsSqrt.sqrt_le_one {sqrt : K → K} (hsqrt : IsSqrt sqrt) {x : K} (hx : 0 ≤ x)
    (hx1 : x ≤ 1) : sqrt x ≤ 1 := by
  obtain ⟨h0, h1⟩ := hsqrt x hx
  by_contra h
  have h2 := not_le.mp h
  have : 1 * 1 < sqrt x * sqrt x := mul_lt_mul h2 (le_of_lt h2) one_pos h0
  linarith

theorem Vec3.length_squared_pos (v : Vec3 K) (hv : v ≠ ⟨0, 0, 0⟩) : 0 < v.length_squared :=
  Sphere.quad_a_pos ⟨v, v⟩ hv

theorem Vec3.unit_vector_length_squared (sqrt : K → K) (hsqrt : IsSqrt sqrt) (v : Vec3 K)
    (hv : v ≠ ⟨0, 0, 0⟩) : (unit_vector sqrt v).length_squared = 1 := by
  have hpos := Vec3.length_squared_pos v hv
  unfold unit_vector Vec3.length
  rw [Vec3.length_squared_div, (hsqrt _ (le_of_lt hpos)).2]
  exact div_self (ne_of_gt hpos)

theorem Vec3.dot_unit_vector (sqrt : K → K) (v n : Vec3 K) :
    dot (unit_vector sqrt v) n = dot v n / v.length sqrt := by
  simp only [dot, unit_vector, Vec3.div_x, Vec3.div_y, Vec3.div_z]
  ring

theorem Vec3.dot_neg_left (u v : Vec3 K) : dot (-u) v = -dot u v := by
  simp only [dot, Vec3.neg_x, Vec3.neg_y, Vec3.neg_z]
  ring

theorem Vec3.add_zero_smul (u v : Vec3 K) : u + (0 : K) * v = u := by
  ext <;> simp

/-- Cauchy-Schwarz for `dot`. -/
theorem Vec3.dot_mul_self_le (u v : Vec3 K) :
    dot u v * dot u v ≤ u.length_squared * v.length_squared := by
  simp only [dot, length_squared]
  nlinarith [sq_nonneg (u.x * v.y - u.y * v.x), sq_nonneg (u.y * v.z - u.z * v.y),
    sq_nonneg (u.z * v.x - u.x * v.z)]

/-- With matched indices `refract` returns a unit vector unchanged when the unit
normal is oriented against it. -/
theorem Vec3.refract_matched (sqrt : K → K) (hsqrt : IsSqrt sqrt) (uv n : Vec3 K)
    (hu : uv.length_squared = 1) (hn : n.length_squared = 1) (hd : 0 ≤ dot (-uv) n)
    (hd1 : dot (-uv) n ≤ 1) : refract sqrt uv n 1 = uv := by
  have hperp : ((1 : K) * (uv + dot (-uv) n * n)).length_squared =
      1 - dot (-uv) n * dot (-uv) n := by
    simp only [length_squared, dot, Vec3.smul_x, Vec3.smul_y, Vec3.smul_z, Vec3.add_x,
      Vec3.add_y, Vec3.add_z, Vec3.neg_x, Vec3.neg_y, Vec3.neg_z] at hu hn ⊢
    linear_combination hu + (uv.x * n.x + uv.y * n.y + uv.z * n.z) ^ 2 * hn
  unfold refract
  simp only [min_eq_left hd1]
  rw [hperp, sub_sub_cancel, abs_mul_self, hsqrt.sqrt_mul_self hd]
  ext <;> simp


omit [LinearOrderedField K] in
@[simp] theorem Ray.direction_mk (o d : Vec3 K) : (Ray.mk o d).direction = d := rfl

omit [LinearOrderedField K] in
@[simp] theorem Ray.origin_mk (o d : Vec3 K) : (Ray.mk o d).origin = o := rfl

theorem Dielectric.reflectance_matched (cosine : K) :
    Dielectric.reflectance cosine 1 = (1 - cosine) ^ 5 := by
  simp [Dielectric.reflectance]

/-- The incidence cosine of `Dielectric::scatter` lies in `[0,1]` when the unit
normal is oriented against the ray. -/
theorem Dielectric.cos_theta_bounds (sqrt : K → K) (hsqrt : IsSqrt sqrt) (r_in : Ray K)
    (n : Vec3 K) (hdir : r_in.direction ≠ ⟨0, 0, 0⟩) (hn : n.length_squared = 1)
    (hagainst : dot r_in.direction n ≤ 0) :
    0 ≤ dot (-(unit_vector sqrt r_in.direction)) n ∧
      dot (-(unit_vector sqrt r_in.direction)) n ≤ 1 := by
  have hu := Vec3.unit_vector_length_squared sqrt hsqrt r_in.direction hdir
  have hlen : 0 < r_in.direction.length sqrt :=
    hsqrt.sqrt_pos (Vec3.length_squared_pos _ hdir)
  have h0 : 0 ≤ dot (-(unit_vector sqrt r_in.direction)) n := by
    rw [Vec3.dot_neg_left, Vec3.dot_unit_vector, neg_nonneg]
    exact div_nonpos_of_nonpos_of_nonneg hagainst (le_of_lt hlen)
  refine ⟨h0, ?_⟩
  have hcs := Vec3.dot_mul_self_le (-(unit_vector sqrt r_in.direction)) n
  rw [Vec3.length_squared_neg, hu, hn] at hcs
  by_contra h
  have h1 := not_le.mp h
  have := mul_lt_mul h1 (le_of_lt h1) one_pos h0
  linarith

/-- The direction `Dielectric::scatter` produces at matched indices: the
reflection when the draw is below `(1 - cos_theta)^5`, else the incoming unit
direction. -/
theorem Dielectric.scatter_matched_direction (sqrt : K → K) (hsqrt : IsSqrt sqrt) (r_in : Ray K)
    (rec : hit_record K) (random_double : K) (hdir : r_in.direction ≠ ⟨0, 0, 0⟩)
    (hn : rec.normal.length_squared = 1) (hagainst : dot r_in.direction rec.normal ≤ 0) :
    (Dielectric.scatter sqrt (Dielectric.Dielectric 1) r_in rec
      random_double).scattered.direction =
        if (1 - dot (-(unit_vector sqrt r_in.direction)) rec.normal) ^ 5 > random_double then
          reflect (unit_vector sqrt r_in.direction) rec.normal
        else unit_vector sqrt r_in.direction := by
  obtain ⟨h0, h1⟩ := Dielectric.cos_theta_bounds sqrt hsqrt r_in rec.normal hdir hn hagainst
  have hu := Vec3.unit_vector_length_squared sqrt hsqrt r_in.direction hdir
  have hratio : (if rec.front_face then 1 / (Dielectric.Dielectric (1 : K)).ir
      else (Dielectric.Dielectric (1 : K)).ir) = 1 := by
    simp [Dielectric.Dielectric]
  have hsin : ¬ ((1 : K) * sqrt (1 - dot (-(unit_vector sqrt r_in.direction)) rec.normal
      * dot (-(unit_vector sqrt r_in.direction)) rec.normal) > 1) := by
    rw [one_mul, gt_iff_lt, not_lt]
    apply hsqrt.sqrt_le_one
    · have := mul_le_mul h1 h1 h0 zero_le_one
      linarith
    · have := mul_nonneg h0 h0
      linarith
  simp only [Dielectric.scatter, Ray.direction_mk, hratio, min_eq_left h1,
    Dielectric.reflectance_matched, decide_eq_true_eq]
  rw [Vec3.refract_matched sqrt hsqrt _ _ hu hn h0 h1]
  simp only [hsin, false_or]

end MaterialLemmas

/-! ## The concrete inputs over the reals -/

section ExampleLemmas

theorem isSqrt_real : IsSqrt Real.sqrt :=
  fun x hx => ⟨Real.sqrt_nonneg x, Real.mul_self_sqrt hx⟩

theorem example_ray_direction_ne : (example_ray : Ray ℝ).direction ≠ ⟨0, 0, 0⟩ := by
  simp [example_ray, Ray.direction]

theorem example_sphere_hit :
    (example_sphere : Sphere ℝ).hit Real.sqrt example_ray 0.001 ⊤ = some example_rec := by
  simp [Sphere.hit, Sphere.fill_record, hit_record.set_face_normal, example_sphere, example_ray,
    example_rec, Ray.origin, Ray.direction, Ray.at, dot, length_squared, Vec3.ext_iff]
  norm_num [Vec3.ext_iff]

theorem far_sphere_hit :
    (far_sphere : Sphere ℝ).hit Real.sqrt example_ray 0.001 ⊤ = some far_rec := by
  simp [Sphere.hit, Sphere.fill_record, hit_record.set_face_normal, far_sphere, example_ray,
    far_rec, Ray.origin, Ray.direction, Ray.at, dot, length_squared, Vec3.ext_iff]
  norm_num [Vec3.ext_iff]

theorem away_ray_miss :
    (example_sphere : Sphere ℝ).hit Real.sqrt away_ray 0.001 ⊤ = none := by
  simp [Sphere.hit, example_sphere, away_ray, Ray.origin, Ray.direction, dot, length_squared]
  norm_num

theorem tangent_hit :
    (example_sphere : Sphere ℝ).hit Real.sqrt tangent_ray 0.001 ⊤ = some tangent_rec := by
  simp [Sphere.hit, Sphere.fill_record, hit_record.set_face_normal, example_sphere, tangent_ray,
    tangent_rec, Ray.origin, Ray.direction, Ray.at, dot, length_squared, Vec3.ext_iff]
  norm_num [Vec3.ext_iff]

theorem example_world_hit :
    (example_world : Hittable_list ℝ).hit Real.sqrt example_ray 0.001 ⊤ = some example_rec := by
  have h2 : (example_sphere : Sphere ℝ).hit Real.sqrt example_ray 0.001
      ((far_rec : hit_record ℝ).t : ℝ) = some example_rec := by
    rw [Sphere.hit_shrink Real.sqrt isSqrt_real _ _ example_ray_direction_ne _ _ ⊤ le_top]
    refine ⟨example_sphere_hit, ?_⟩
    rw [WithTop.coe_le_coe]
    norm_num [example_rec, far_rec]
  simp [Hittable_list.hit, Hittable_list.hit_loop, example_world, far_sphere_hit, h2]

theorem oblique_ray_direction_ne : (oblique_ray : Ray ℝ).direction ≠ ⟨0, 0, 0⟩ := by
  simp [oblique_ray, Ray.direction]

theorem oblique_ray_unit :
    unit_vector Real.sqrt (oblique_ray : Ray ℝ).direction = ⟨3 / 5, -4 / 5, 0⟩ := by
  have hl : (oblique_ray : Ray ℝ).direction.length_squared = 1 := by
    norm_num [oblique_ray, Ray.direction, length_squared]
  unfold unit_vector Vec3.length
  rw [hl, Real.sqrt_one]
  simp [oblique_ray, Ray.direction, Vec3.ext_iff]

theorem oblique_cos_theta :
    dot (-(unit_vector Real.sqrt (oblique_ray : Ray ℝ).direction)) (oblique_rec : hit_record ℝ).normal
      = 4 / 5 := by
  rw [oblique_ray_unit]
  norm_num [dot, oblique_rec]

end ExampleLemmas

/-! ## Camera and range lemmas -/

section CameraAndRangeLemmas

variable {K : Type} [LinearOrderedField K]

theorem Camera.lens_radius_of_aperture_zero (sqrt tan : K → K) (lookfrom lookat vup : Vec3 K)
    (vfov aspect_ratio focus_dist : K) :
    (Camera.Camera sqrt tan lookfrom lookat vup vfov aspect_ratio 0 focus_dist).lens_radius = 0 ∧
      (Camera.Camera sqrt tan lookfrom lookat vup vfov aspect_ratio 0 focus_dist).origin
        = lookfrom := by
  simp [Camera.Camera]

theorem example_sphere_hit_at_t_min :
    (example_sphere : Sphere ℝ).hit Real.sqrt example_ray 2 ⊤ = some example_rec := by
  simp [Sphere.hit, Sphere.fill_record, hit_record.set_face_normal, example_sphere, example_ray,
    example_rec, Ray.origin, Ray.direction, Ray.at, dot, length_squared, Vec3.ext_iff]
  norm_num [Vec3.ext_iff]

theorem example_sphere_hit_at_t_max :
    (example_sphere : Sphere ℝ).hit Real.sqrt example_ray 0.001 ((2 : ℝ) : WithTop ℝ)
      = some example_rec := by
  rw [Sphere.hit_shrink Real.sqrt isSqrt_real _ _ example_ray_direction_ne _ _ ⊤ le_top]
  exact ⟨example_sphere_hit, le_of_eq rfl⟩

end CameraAndRangeLemmas

/-! ## The tie-break of the list -/

section TheTieBreakOfTheList

variable {K : Type} [LinearOrderedField K]

/-- The loop of `Hittable_list::hit`: the record it ends with is the starting
one, with every remaining member hitting strictly farther, or that of a member
after which every member hits strictly farther. -/
theorem Hittable_list.hit_loop_last (sqrt : K → K) (hsqrt : IsSqrt sqrt) (r : Ray K)
    (hdir : r.direction ≠ ⟨0, 0, 0⟩) (t_min : K) (t_max : WithTop K)
    (l : List (Sphere K)) (c : WithTop K) (acc : Option (hit_record K)) (hc : c ≤ t_max)
    (hacc : ∀ rec0, acc = some rec0 → (rec0.t : WithTop K) = c) (rec : hit_record K)
    (h : Hittable_list.hit_loop sqrt r t_min l c acc = some rec) :
    (acc = some rec ∧
        ∀ s ∈ l, ∀ rec1, s.hit sqrt r t_min t_max = some rec1 → rec.t < rec1.t) ∨
      ∃ l1 s l2, l = l1 ++ s :: l2 ∧ s.hit sqrt r t_min t_max = some rec ∧
        ∀ s1 ∈ l2, ∀ rec1, s1.hit sqrt r t_min t_max = some rec1 → rec.t < rec1.t := by
  induction l generalizing c acc with
  | nil =>
    simp only [Hittable_list.hit_loop] at h
    exact Or.inl ⟨h, by simp⟩
  | cons s rest ih =>
    rw [Hittable_list.hit_loop] at h
    cases hs : s.hit sqrt r t_min c with
    | none =>
      rw [hs] at h
      rcases ih c acc hc hacc h with ⟨h1, h2⟩ | ⟨l1, s1, l2, h1, h2, h3⟩
      · left
        refine ⟨h1, ?_⟩
        intro s1 hs1 rec1 hrec1
        rcases List.mem_cons.mp hs1 with rfl | hs1
        · by_contra hlt
          have hle : (rec1.t : WithTop K) ≤ c := by
            rw [← hacc rec h1]
            exact WithTop.coe_le_coe.mpr (not_lt.mp hlt)
          have := (Sphere.hit_shrink sqrt hsqrt s1 r hdir t_min c t_max hc rec1).mpr
            ⟨hrec1, hle⟩
          rw [hs] at this
          exact absurd this (by simp)
        · exact h2 s1 hs1 rec1 hrec1
      · right
        exact ⟨s :: l1, s1, l2, by rw [h1]; rfl, h2, h3⟩
    | some temp =>
      rw [hs] at h
      obtain ⟨hfull, htle⟩ := (Sphere.hit_shrink sqrt hsqrt s r hdir t_min c t_max hc temp).mp hs
      rcases ih (temp.t : K) (some temp) (le_trans htle hc)
        (fun rec0 h0 => by rw [Option.some.inj h0]) h with ⟨h1, h2⟩ | ⟨l1, s1, l2, h1, h2, h3⟩
      · right
        refine ⟨[], s, rest, rfl, ?_, h2⟩
        rw [← Option.some.inj h1]
        exact hfull
      · right
        exact ⟨s :: l1, s1, l2, by rw [h1]; rfl, h2, h3⟩

theorem twin_sphere_hit :
    (twin_sphere : Sphere ℝ).hit Real.sqrt example_ray 0.001 ⊤ = some twin_rec := by
  simp [Sphere.hit, Sphere.fill_record, hit_record.set_face_normal, twin_sphere, example_ray,
    twin_rec, Ray.origin, Ray.direction, Ray.at, dot, length_squared, Vec3.ext_iff]
  norm_num [Vec3.ext_iff]

theorem twin_world_hit :
    (twin_world : Hittable_list ℝ).hit Real.sqrt example_ray 0.001 ⊤ = some twin_rec := by
  have h2 : (twin_sphere : Sphere ℝ).hit Real.sqrt example_ray 0.001
      ((example_rec : hit_record ℝ).t : ℝ) = some twin_rec := by
    rw [Sphere.hit_shrink Real.sqrt isSqrt_real _ _ example_ray_direction_ne _ _ ⊤ le_top]
    exact ⟨twin_sphere_hit, le_of_eq rfl⟩
  simp [Hittable_list.hit, Hittable_list.hit_loop, twin_world, example_sphere_hit, h2]

end TheTieBreakOfTheList

/-! ## Roots and front face -/

section RootsAndFrontFace

variable {K : Type} [LinearOrderedField K]

theorem IsSqrt.sqrt_zero {sqrt : K → K} (hsqrt : IsSqrt sqrt) : sqrt 0 = 0 := by
  have := hsqrt.sqrt_mul_self (le_refl (0 : K))
  rwa [mul_zero] at this

/-- The average of the two roots of `Sphere::hit`. -/
theorem Sphere.roots_average (sqrt : K → K) (s : Sphere K) (r : Ray K) :
    (Sphere.root1 sqrt s r + Sphere.root2 sqrt s r) / 2 =
      dot (s.center - r.origin) r.direction / r.direction.length_squared := by
  have hb : Sphere.half_b s r = -dot (s.center - r.origin) r.direction := by
    simp only [Sphere.half_b, dot, Vec3.sub_x, Vec3.sub_y, Vec3.sub_z]
    ring
  simp only [Sphere.root1, Sphere.root2, Sphere.quad_a, hb]
  ring

theorem Vec3.length_mul_self (sqrt : K → K) (hsqrt : IsSqrt sqrt) (v : Vec3 K) :
    v.length sqrt * v.length sqrt = v.length_squared := by
  have h0 : 0 ≤ v.length_squared := by
    unfold length_squared
    have := mul_self_nonneg v.x
    have := mul_self_nonneg v.y
    have := mul_self_nonneg v.z
    linarith
  exact (hsqrt _ h0).2

/-- The dot product that `set_face_normal` tests, for the record of a root. -/
theorem Sphere.dot_outward_normal (s : Sphere K) (r : Ray K) (root : K) :
    dot r.direction ((r.at root - s.center) / s.radius) =
      (Sphere.half_b s r + Sphere.quad_a r * root) / s.radius := by
  simp only [Sphere.half_b, Sphere.quad_a, dot, length_squared, Ray.at, Ray.origin,
    Ray.direction, Vec3.sub_x, Vec3.sub_y, Vec3.sub_z, Vec3.add_x, Vec3.add_y, Vec3.add_z,
    Vec3.smul_x, Vec3.smul_y, Vec3.smul_z, Vec3.div_x, Vec3.div_y, Vec3.div_z]
  ring

theorem Sphere.fill_record_front_face (s : Sphere K) (r : Ray K) (root : K) :
    (s.fill_record r root).front_face =
      decide ((Sphere.half_b s r + Sphere.quad_a r * root) / s.radius < 0) := by
  rw [← Sphere.dot_outward_normal]
  rfl

theorem Sphere.half_b_add_root1 (sqrt : K → K) (s : Sphere K) (r : Ray K)
    (ha : 0 < Sphere.quad_a r) :
    Sphere.half_b s r + Sphere.quad_a r * Sphere.root1 sqrt s r
      = -sqrt (Sphere.discriminant s r) := by
  unfold Sphere.root1
  field_simp
  ring

theorem Sphere.half_b_add_root2 (sqrt : K → K) (s : Sphere K) (r : Ray K)
    (ha : 0 < Sphere.quad_a r) :
    Sphere.half_b s r + Sphere.quad_a r * Sphere.root2 sqrt s r
      = sqrt (Sphere.discriminant s r) := by
  unfold Sphere.root2
  field_simp

theorem IsSqrt.sqrt_pos_iff {sqrt : K → K} (hsqrt : IsSqrt sqrt) {x : K} (hx : 0 ≤ x) :
    0 < sqrt x ↔ 0 < x := by
  obtain ⟨h0, h1⟩ := hsqrt x hx
  constructor
  · intro h
    rw [← h1]
    exact mul_pos h h
  · intro h
    exact hsqrt.sqrt_pos h

theorem real_sqrt_four : Real.sqrt 4 = 2 := by
  rw [show (4 : ℝ) = 2 * 2 by norm_num]
  exact Real.sqrt_mul_self (by norm_num)

theorem double_ray_discriminant :
    Sphere.discriminant (example_sphere : Sphere ℝ) double_ray = 4 := by
  norm_num [Sphere.discriminant, Sphere.half_b, Sphere.quad_a, Sphere.quad_c, example_sphere,
    double_ray, Ray.origin, Ray.direction, dot, length_squared]

theorem double_ray_unit :
    unit_vector Real.sqrt (double_ray : Ray ℝ).direction = ⟨0, 0, 1⟩ := by
  have hl : (double_ray : Ray ℝ).direction.length_squared = 4 := by
    norm_num [double_ray, Ray.direction, length_squared]
  unfold unit_vector Vec3.length
  rw [hl, real_sqrt_four]
  simp [double_ray, Ray.direction, Vec3.ext_iff]

theorem back_hit :
    (example_sphere : Sphere ℝ).hit Real.sqrt example_ray 3 ⊤ = some back_rec := by
  simp [Sphere.hit, Sphere.fill_record, hit_record.set_face_normal, example_sphere, example_ray,
    back_rec, Ray.origin, Ray.direction, Ray.at, dot, length_squared, Vec3.ext_iff]
  norm_num [Vec3.ext_iff]

end RootsAndFrontFace

/-! ## The recursion of ray_color -/

section TheRecursionOfRay_Color

variable {K : Type} [LinearOrderedField K]

theorem Vec3.in_unit_range_zero : (⟨0, 0, 0⟩ : Vec3 K).in_unit_range := by
  simp [Vec3.in_unit_range]

theorem Vec3.in_unit_range_mul (u v : Vec3 K) (hu : u.in_unit_range) (hv : v.in_unit_range) :
    (u * v).in_unit_range := by
  obtain ⟨⟨h1, h2⟩, ⟨h3, h4⟩, h5, h6⟩ := hu
  obtain ⟨⟨k1, k2⟩, ⟨k3, k4⟩, k5, k6⟩ := hv
  simp only [Vec3.in_unit_range, Vec3.mul_x, Vec3.mul_y, Vec3.mul_z]
  exact ⟨⟨mul_nonneg h1 k1, by nlinarith⟩, ⟨mul_nonneg h3 k3, by nlinarith⟩,
    mul_nonneg h5 k5, by nlinarith⟩

theorem Vec3.unit_vector_y_bounds (sqrt : K → K) (hsqrt : IsSqrt sqrt) (v : Vec3 K) :
    -1 ≤ (unit_vector sqrt v).y ∧ (unit_vector sqrt v).y ≤ 1 := by
  have hx := mul_self_nonneg v.x
  have hz := mul_self_nonneg v.z
  have hy := mul_self_nonneg v.y
  have h0 : 0 ≤ v.length_squared := by unfold length_squared; linarith
  obtain ⟨hs0, hsq⟩ := hsqrt _ h0
  simp only [unit_vector, Vec3.length, Vec3.div_y]
  rcases lt_or_eq_of_le hs0 with hpos | hzero
  · have hle : v.y * v.y ≤ sqrt v.length_squared * sqrt v.length_squared := by
      rw [hsq]; unfold length_squared; linarith
    have habs := abs_le_of_sq_le_sq' (by simpa [sq] using hle) hs0
    exact ⟨(le_div_iff₀ hpos).mpr (by linarith [habs.1]),
      (div_le_one hpos).mpr habs.2⟩
  · rw [← hzero]
    simp

/-- The sky gradient of `ray_color` stays in `[0,1]`. -/
theorem gradient_in_unit_range (y : K) (h1 : -1 ≤ y) (h2 : y ≤ 1) :
    ((1.0 - 0.5 * (y + 1.0)) * (⟨1.0, 1.0, 1.0⟩ : Vec3 K)
      + (0.5 * (y + 1.0)) * (⟨0.5, 0.7, 1.0⟩ : Vec3 K)).in_unit_range := by
  simp only [Vec3.in_unit_range, Vec3.add_x, Vec3.add_y, Vec3.add_z, Vec3.smul_x, Vec3.smul_y,
    Vec3.smul_z]
  norm_num
  refine ⟨⟨?_, ?_⟩, ⟨?_, ?_⟩⟩ <;> linarith

theorem Sphere.hit_mat_ptr (sqrt : K → K) (s : Sphere K) (r : Ray K) (t_min : K)
    (t_max : WithTop K) (rec : hit_record K) (h : s.hit sqrt r t_min t_max = some rec) :
    rec.mat_ptr = s.mat_ptr := by
  obtain ⟨_, ⟨_, hrec⟩ | ⟨_, _, hrec⟩⟩ := (Sphere.hit_some_iff sqrt s r t_min t_max rec).mp h
  · rw [hrec]; rfl
  · rw [hrec]; rfl

theorem Hittable_list.hit_loop_mat_ptr (sqrt : K → K) (r : Ray K) (t_min : K)
    (l : List (Sphere K)) (c : WithTop K) (acc : Option (hit_record K)) (rec : hit_record K)
    (h : Hittable_list.hit_loop sqrt r t_min l c acc = some rec) :
    acc = some rec ∨ ∃ s ∈ l, rec.mat_ptr = s.mat_ptr := by
  induction l generalizing c acc with
  | nil => exact Or.inl h
  | cons s rest ih =>
    rw [Hittable_list.hit_loop] at h
    cases hs : s.hit sqrt r t_min c with
    | none =>
      rw [hs] at h
      rcases ih c acc h with h1 | ⟨s1, hs1, h1⟩
      · exact Or.inl h1
      · exact Or.inr ⟨s1, List.mem_cons_of_mem _ hs1, h1⟩
    | some temp =>
      rw [hs] at h
      rcases ih _ _ h with h1 | ⟨s1, hs1, h1⟩
      · right
        refine ⟨s, List.mem_cons_self _ _, ?_⟩
        rw [← Option.some.inj h1]
        exact Sphere.hit_mat_ptr sqrt s r t_min c temp hs
      · exact Or.inr ⟨s1, List.mem_cons_of_mem _ hs1, h1⟩

theorem Hittable_list.hit_member_mat_ptr (sqrt : K → K) (world : Hittable_list K) (r : Ray K)
    (t_min : K) (t_max : WithTop K) (rec : hit_record K)
    (h : world.hit sqrt r t_min t_max = some rec) :
    ∃ s ∈ world.objects, rec.mat_ptr = s.mat_ptr := by
  rcases Hittable_list.hit_loop_mat_ptr sqrt r t_min world.objects t_max none rec h with h1 | h1
  · exact absurd h1 (by simp)
  · exact h1

theorem Material.scatter_attenuation_in_unit_range (sqrt : K → K) (eps : K) (d : Draws K)
    (m : Material K) (r_in : Ray K) (rec : hit_record K) (hm : m.albedo_in_unit_range) :
    (m.scatter sqrt eps d r_in rec).attenuation.in_unit_range := by
  cases m with
  | lambertian l => exact hm
  | metal l => exact hm
  | dielectric l =>
    simp [Material.scatter, Dielectric.scatter, Vec3.in_unit_range]

/-- The exhausted branch of `ray_color`. -/
theorem ray_color_black_of_nonpos (sqrt : K → K) (eps : K) (draws : Nat → Draws K) (r : Ray K)
    (world : Hittable_list K) (depth : Int) (h : depth ≤ 0) :
    ray_color sqrt eps draws r world depth = ⟨0, 0, 0⟩ := by
  rw [ray_color]
  simp [h]

/-- The hit branch of `ray_color`. -/
theorem ray_color_of_hit (sqrt : K → K) (eps : K) (draws : Nat → Draws K) (r : Ray K)
    (world : Hittable_list K) (depth : Int) (hdepth : 0 < depth) (rec : hit_record K)
    (hhit : world.hit sqrt r 0.001 ⊤ = some rec) :
    ray_color sqrt eps draws r world depth =
      if (rec.mat_ptr.scatter sqrt eps (draws 0) r rec).ok then
        (rec.mat_ptr.scatter sqrt eps (draws 0) r rec).attenuation *
          ray_color sqrt eps (fun n => draws (n + 1))
            (rec.mat_ptr.scatter sqrt eps (draws 0) r rec).scattered world (depth - 1)
      else ⟨0, 0, 0⟩ := by
  rw [ray_color]
  simp only [not_le.mpr hdepth, if_false, hhit]

theorem ray_color_in_unit_range_aux (sqrt : K → K) (hsqrt : IsSqrt sqrt) (eps : K)
    (world : Hittable_list K)
    (halbedo : ∀ s ∈ world.objects, s.mat_ptr.albedo_in_unit_range) (n : Nat) :
    ∀ (depth : Int), depth ≤ n → ∀ (draws : Nat → Draws K) (r : Ray K),
      (ray_color sqrt eps draws r world depth).in_unit_range := by
  induction n with
  | zero =>
    intro depth hd draws r
    rw [ray_color_black_of_nonpos sqrt eps draws r world depth (by simpa using hd)]
    exact Vec3.in_unit_range_zero
  | succ n ih =>
    intro depth hd draws r
    rcases le_or_lt depth 0 with h0 | h0
    · rw [ray_color_black_of_nonpos sqrt eps draws r world depth h0]
      exact Vec3.in_unit_range_zero
    · cases hhit : world.hit sqrt r 0.001 ⊤ with
      | none =>
        rw [ray_color_of_miss sqrt eps draws r world depth h0 hhit]
        obtain ⟨h1, h2⟩ := Vec3.unit_vector_y_bounds sqrt hsqrt r.direction
        exact gradient_in_unit_range _ h1 h2
      | some rec =>
        rw [ray_color_of_hit sqrt eps draws r world depth h0 rec hhit]
        obtain ⟨s, hs, hmat⟩ := Hittable_list.hit_member_mat_ptr sqrt world r 0.001 ⊤ rec hhit
        by_cases hok : (rec.mat_ptr.scatter sqrt eps (draws 0) r rec).ok = true
        · rw [if_pos hok]
          apply Vec3.in_unit_range_mul
          · apply Material.scatter_attenuation_in_unit_range
            rw [hmat]
            exact halbedo s hs
          · apply ih
            push_cast at hd
            linarith
        · rw [if_neg hok]
          exact Vec3.in_unit_range_zero

end TheRecursionOfRay_Color

/-! ## The end-to-end scene -/

section TheEndToEndScene

variable {K : Type} [LinearOrderedField K]

/-- A list of one sphere is hit exactly as the sphere is. -/
theorem Hittable_list.hit_singleton (sqrt : K → K) (s : Sphere K) (r : Ray K) (t_min : K)
    (t_max : WithTop K) : Hittable_list.hit sqrt ⟨[s]⟩ r t_min t_max = s.hit sqrt r t_min t_max := by
  unfold Hittable_list.hit
  rw [Hittable_list.hit_loop]
  cases s.hit sqrt r t_min t_max <;> rfl

/-- With budget 1 a hit on a Lambertian surface yields black: the bounce is traced
with budget 0. -/
theorem ray_color_one_of_lambertian_hit (sqrt : K → K) (eps : K) (draws : Nat → Draws K)
    (r : Ray K) (world : Hittable_list K) (rec : hit_record K) (m : Lambertian K)
    (hhit : world.hit sqrt r 0.001 ⊤ = some rec) (hmat : rec.mat_ptr = Material.lambertian m) :
    ray_color sqrt eps draws r world 1 = ⟨0, 0, 0⟩ := by
  rw [ray_color_of_hit sqrt eps draws r world 1 one_pos rec hhit, hmat]
  have hok : (Material.scatter sqrt eps (draws 0) (Material.lambertian m) r rec).ok = true := rfl
  rw [if_pos hok, ray_color_black_of_nonpos _ _ _ _ _ _ (by norm_num)]
  ext <;> simp

/-- The centre ray of the axis camera starts at `(0,0,2)` and points along
`-z` with length `focus_dist`. -/
theorem axis_camera_center_ray (sqrt tan : K → K) (hsqrt : IsSqrt sqrt)
    (vfov aspect_ratio focus_dist : K) (rd : Vec3 K) :
    (axis_camera sqrt tan vfov aspect_ratio focus_dist).get_ray 0.5 0.5 rd =
      ⟨⟨0, 0, 2⟩, ⟨0, 0, -focus_dist⟩⟩ := by
  have hw : unit_vector sqrt ((⟨0, 0, 2⟩ : Vec3 K) - ⟨0, 0, 0⟩) = ⟨0, 0, 1⟩ := by
    have hl : ((⟨0, 0, 2⟩ : Vec3 K) - ⟨0, 0, 0⟩).length_squared = 2 * 2 := by
      simp [length_squared]
    unfold unit_vector Vec3.length
    rw [hl, hsqrt.sqrt_mul_self (by norm_num)]
    ext <;> simp
  simp only [axis_camera, Camera.Camera, Camera.get_ray, hw]
  refine congrArg₂ Ray.mk ?_ ?_
  · ext <;> simp
  · ext <;> simp <;> ring

/-- The centre ray hits the sphere of radius 0.5 at the origin on the range
`(0.001, ∞)` as long as the focus distance, the length of its direction, is at
most 2500. -/
theorem center_ray_hits (sqrt : K → K) (hsqrt : IsSqrt sqrt) (m : Material K) (focus_dist : K)
    (hf0 : 0 < focus_dist) (hf1 : focus_dist ≤ 2500) :
    ∃ rec, Sphere.hit sqrt (⟨⟨0, 0, 0⟩, 0.5, m⟩ : Sphere K) ⟨⟨0, 0, 2⟩, ⟨0, 0, -focus_dist⟩⟩
      0.001 ⊤ = some rec := by
  have hne : focus_dist ≠ 0 := ne_of_gt hf0
  have hd : Sphere.discriminant (⟨⟨0, 0, 0⟩, 0.5, m⟩ : Sphere K)
      ⟨⟨0, 0, 2⟩, ⟨0, 0, -focus_dist⟩⟩ = (focus_dist / 2) * (focus_dist / 2) := by
    simp only [Sphere.discriminant, Sphere.half_b, Sphere.quad_a, Sphere.quad_c, Ray.origin,
      Ray.direction, dot, length_squared, Vec3.sub_x, Vec3.sub_y, Vec3.sub_z]
    norm_num
    ring
  have h2 : Sphere.root2 sqrt (⟨⟨0, 0, 0⟩, 0.5, m⟩ : Sphere K)
      ⟨⟨0, 0, 2⟩, ⟨0, 0, -focus_dist⟩⟩ = 2.5 / focus_dist := by
    rw [Sphere.root2, hd, hsqrt.sqrt_mul_self (by linarith)]
    simp only [Sphere.half_b, Sphere.quad_a, Ray.origin, Ray.direction, dot, length_squared,
      Vec3.sub_x, Vec3.sub_y, Vec3.sub_z]
    field_simp
    norm_num
    ring
  have hin : Sphere.in_range (0.001 : K) ⊤ (Sphere.root2 sqrt (⟨⟨0, 0, 0⟩, 0.5, m⟩ : Sphere K)
      ⟨⟨0, 0, 2⟩, ⟨0, 0, -focus_dist⟩⟩) := by
    refine ⟨?_, le_top⟩
    rw [h2, le_div_iff₀ hf0]
    norm_num
    linarith
  cases hhit : Sphere.hit sqrt (⟨⟨0, 0, 0⟩, 0.5, m⟩ : Sphere K)
      ⟨⟨0, 0, 2⟩, ⟨0, 0, -focus_dist⟩⟩ 0.001 ⊤ with
  | some rec => exact ⟨rec, rfl⟩
  | none =>
    exfalso
    rcases (Sphere.hit_none_iff sqrt _ _ _ _).mp hhit with hneg | ⟨_, hout⟩
    · rw [hd] at hneg
      exact absurd hneg (not_lt.mpr (mul_self_nonneg _))
    · exact hout hin

/-- The colour of the centre pixel in the end-to-end scene with budget 1. -/
theorem center_pixel_black (sqrt tan : K → K) (hsqrt : IsSqrt sqrt) (eps : K)
    (draws : Nat → Draws K) (a : Vec3 K) (vfov aspect_ratio focus_dist : K) (rd : Vec3 K)
    (hf0 : 0 < focus_dist) (hf1 : focus_dist ≤ 2500) :
    ray_color sqrt eps draws
      ((axis_camera sqrt tan vfov aspect_ratio focus_dist).get_ray 0.5 0.5 rd)
      (single_sphere_world a) 1 = ⟨0, 0, 0⟩ := by
  rw [axis_camera_center_ray sqrt tan hsqrt]
  obtain ⟨rec, hrec⟩ := center_ray_hits sqrt hsqrt
    (Material.lambertian (Lambertian.Lambertian a)) focus_dist hf0 hf1
  have hhit : (single_sphere_world a).hit sqrt ⟨⟨0, 0, 2⟩, ⟨0, 0, -focus_dist⟩⟩ 0.001 ⊤
      = some rec := by
    rw [single_sphere_world, Hittable_list.hit_singleton]
    exact hrec
  exact ray_color_one_of_lambertian_hit sqrt eps draws _ _ rec (Lambertian.Lambertian a) hhit
    (Sphere.hit_mat_ptr sqrt _ _ _ _ rec hrec)

end TheEndToEndScene

/-! ## Claims -/

section Claims

variable {K : Type} [LinearOrderedField K]

/-- C1: with a depth budget `depth ≤ 0` the function `ray_color` returns the colour
`(0,0,0)`, whatever the ray, the scene, the square root and the random draws. -/
theorem ray_color_depth_exhausted (sqrt : K → K) (eps : K) (draws : Nat → Draws K)
    (r : Ray K) (world : Hittable_list K) (depth : Int) (h : depth ≤ 0) :
    ray_color sqrt eps draws r world depth = ⟨0, 0, 0⟩ := by
  rw [ray_color]
  simp [h]

/-- C1 at a concrete input: budget 0 on the two-sphere scene over the reals. -/
theorem ray_color_depth_exhausted_witness :
    (0 : Int) ≤ 0 ∧
      ray_color Real.sqrt 0.00000001 example_draws example_ray example_world 0
        = (⟨0, 0, 0⟩ : Vec3 ℝ) :=
  ⟨le_refl 0, ray_color_depth_exhausted Real.sqrt 0.00000001 example_draws example_ray
    example_world 0 (le_refl 0)⟩

/-- C2: `Hittable_list::hit` reports a hit exactly when some member, tested alone on
the same range, reports one; the `t` it returns is the least `t` the members
report alone; hence the answer and the returned `t` do not depend on the order
of the list. -/
theorem Hittable_list_hit_nearest (sqrt : K → K) (hsqrt : IsSqrt sqrt)
    (world : Hittable_list K) (r : Ray K) (hdir : r.direction ≠ ⟨0, 0, 0⟩) (t_min : K)
    (t_max : WithTop K) :
    ((world.hit sqrt r t_min t_max).isSome ↔
        ∃ s ∈ world.objects, (s.hit sqrt r t_min t_max).isSome) ∧
      (∀ rec : hit_record K, world.hit sqrt r t_min t_max = some rec →
        (∃ s ∈ world.objects, ∃ rec1, s.hit sqrt r t_min t_max = some rec1 ∧ rec1.t = rec.t) ∧
        ∀ s ∈ world.objects, ∀ rec1, s.hit sqrt r t_min t_max = some rec1 → rec.t ≤ rec1.t) ∧
      (∀ world1 : Hittable_list K, world.objects.Perm world1.objects →
        (world1.hit sqrt r t_min t_max).map hit_record.t =
          (world.hit sqrt r t_min t_max).map hit_record.t) := by
  refine ⟨Hittable_list.hit_isSome_iff sqrt world r t_min t_max, ?_, ?_⟩
  · intro rec h
    obtain ⟨⟨s, hs, h1⟩, h2⟩ := Hittable_list.hit_min sqrt hsqrt world r hdir t_min t_max rec h
    exact ⟨⟨s, hs, rec, h1, rfl⟩, h2⟩
  · intro world1 hperm
    cases h : world.hit sqrt r t_min t_max with
    | none =>
      cases h1 : world1.hit sqrt r t_min t_max with
      | none => rfl
      | some rec1 =>
        exfalso
        obtain ⟨⟨s, hs, hs1⟩, _⟩ :=
          Hittable_list.hit_min sqrt hsqrt world1 r hdir t_min t_max rec1 h1
        have : (world.hit sqrt r t_min t_max).isSome :=
          (Hittable_list.hit_isSome_iff sqrt world r t_min t_max).mpr
            ⟨s, hperm.mem_iff.mpr hs, by rw [hs1]; rfl⟩
        rw [h] at this
        exact absurd this (by simp)
    | some rec =>
      obtain ⟨⟨s, hs, hs1⟩, hmin⟩ :=
        Hittable_list.hit_min sqrt hsqrt world r hdir t_min t_max rec h
      cases h1 : world1.hit sqrt r t_min t_max with
      | none =>
        exfalso
        have : (world1.hit sqrt r t_min t_max).isSome :=
          (Hittable_list.hit_isSome_iff sqrt world1 r t_min t_max).mpr
            ⟨s, hperm.mem_iff.mp hs, by rw [hs1]; rfl⟩
        rw [h1] at this
        exact absurd this (by simp)
      | some rec1 =>
        obtain ⟨⟨s1, hs1m, hs1h⟩, hmin1⟩ :=
          Hittable_list.hit_min sqrt hsqrt world1 r hdir t_min t_max rec1 h1
        have hle1 : rec.t ≤ rec1.t := hmin s1 (hperm.mem_iff.mpr hs1m) rec1 hs1h
        have hle2 : rec1.t ≤ rec.t := hmin1 s (hperm.mem_iff.mp hs) rec hs1
        simp only [Option.map_some']
        rw [le_antisymm hle1 hle2]

/-- C2 at a concrete input: the scene lists the farther sphere first, the list
returns the nearer hit at `t = 2`, and no member reports a smaller `t`. -/
theorem Hittable_list_hit_nearest_witness :
    IsSqrt Real.sqrt ∧ (example_ray : Ray ℝ).direction ≠ ⟨0, 0, 0⟩ ∧
      (example_world : Hittable_list ℝ).hit Real.sqrt example_ray 0.001 ⊤ = some example_rec ∧
      (∀ s ∈ (example_world : Hittable_list ℝ).objects, ∀ rec1,
        s.hit Real.sqrt example_ray 0.001 ⊤ = some rec1 →
          (example_rec : hit_record ℝ).t ≤ rec1.t) :=
  ⟨isSqrt_real, example_ray_direction_ne, example_world_hit,
    ((Hittable_list_hit_nearest Real.sqrt isSqrt_real example_world example_ray
      example_ray_direction_ne 0.001 ⊤).2.1 example_rec example_world_hit).2⟩

/-- C3: `Sphere::hit` is a sound and complete ray/sphere intersection test for a
ray with non-zero direction.  Soundness: a reported record has
`rec.p = origin + rec.t * direction`, `|rec.p - C|^2 = r^2`, `rec.t` is a root of
`a*t^2 + 2*half_b*t + c = 0`, passes the range test, and no root that passes the
range test is smaller.  Completeness: when no hit is reported, no `t` with
`t_min ≤ t ≤ t_max` puts `origin + t * direction` on the sphere. -/
theorem Sphere_hit_sound_and_complete (sqrt : K → K) (hsqrt : IsSqrt sqrt) (s : Sphere K)
    (r : Ray K) (t_min : K) (t_max : WithTop K) (hdir : r.direction ≠ ⟨0, 0, 0⟩) :
    (∀ rec : hit_record K, s.hit sqrt r t_min t_max = some rec →
      rec.p = r.origin + rec.t * r.direction ∧
      (rec.p - s.center).length_squared = s.radius * s.radius ∧
      Sphere.quad_a r * rec.t ^ 2 + 2 * Sphere.half_b s r * rec.t + Sphere.quad_c s r = 0 ∧
      (t_min ≤ rec.t ∧ (rec.t : WithTop K) ≤ t_max) ∧
      ∀ t : K, Sphere.quad_a r * t ^ 2 + 2 * Sphere.half_b s r * t + Sphere.quad_c s r = 0 →
        t_min ≤ t → (t : WithTop K) ≤ t_max → rec.t ≤ t) ∧
    (s.hit sqrt r t_min t_max = none →
      ∀ t : K, t_min ≤ t → (t : WithTop K) ≤ t_max →
        (r.at t - s.center).length_squared ≠ s.radius * s.radius) := by
  have ha := Sphere.quad_a_pos r hdir
  constructor
  · intro rec h
    obtain ⟨hd, hcase⟩ := (Sphere.hit_some_iff sqrt s r t_min t_max rec).mp h
    have hle := Sphere.root1_le_root2 sqrt hsqrt s r ha hd
    have hroot : Sphere.quad_a r * rec.t ^ 2 + 2 * Sphere.half_b s r * rec.t
        + Sphere.quad_c s r = 0 := by
      rw [Sphere.quadratic_eq_zero_iff sqrt hsqrt s r ha]
      rcases hcase with ⟨_, hrec⟩ | ⟨_, _, hrec⟩
      · exact ⟨hd, Or.inl (by rw [hrec]; rfl)⟩
      · exact ⟨hd, Or.inr (by rw [hrec]; rfl)⟩
    have hp : rec.p = r.at rec.t := by
      rcases hcase with ⟨_, hrec⟩ | ⟨_, _, hrec⟩ <;> rw [hrec] <;> rfl
    refine ⟨hp, ?_, hroot, ?_, ?_⟩
    · have := Sphere.at_quadratic s r rec.t
      rw [hroot, ← hp] at this
      exact sub_eq_zero.mp this
    · rcases hcase with ⟨hin, hrec⟩ | ⟨_, hin, hrec⟩ <;> rw [hrec] <;> exact hin
    · intro t ht hmin hmax
      obtain ⟨_, ht⟩ := (Sphere.quadratic_eq_zero_iff sqrt hsqrt s r ha t).mp ht
      rcases hcase with ⟨_, hrec⟩ | ⟨hout, _, hrec⟩
      · rw [hrec, Sphere.fill_record_t]
        rcases ht with ht | ht
        · exact le_of_eq ht.symm
        · rw [ht]; exact hle
      · rw [hrec, Sphere.fill_record_t]
        rcases ht with ht | ht
        · exact absurd (show Sphere.in_range t_min t_max (Sphere.root1 sqrt s r) from
            ht ▸ ⟨hmin, hmax⟩) hout
        · exact le_of_eq ht.symm
  · intro h t hmin hmax hon
    have hq : Sphere.quad_a r * t ^ 2 + 2 * Sphere.half_b s r * t + Sphere.quad_c s r = 0 := by
      rw [← Sphere.at_quadratic, hon, sub_self]
    obtain ⟨hd, ht⟩ := (Sphere.quadratic_eq_zero_iff sqrt hsqrt s r ha t).mp hq
    rcases (Sphere.hit_none_iff sqrt s r t_min t_max).mp h with hneg | ⟨h1, h2⟩
    · exact absurd hd (not_le.mpr hneg)
    · rcases ht with ht | ht
      · exact h1 (ht ▸ ⟨hmin, hmax⟩)
      · exact h2 (ht ▸ ⟨hmin, hmax⟩)

/-- C3 at a concrete input: the ray through the centre of the unit sphere hits at
`(0,0,-1)`, a point of the sphere; for the ray aimed away a miss excludes every
point of the ray in range. -/
theorem Sphere_hit_sound_and_complete_witness :
    IsSqrt Real.sqrt ∧ (example_ray : Ray ℝ).direction ≠ ⟨0, 0, 0⟩ ∧
      (example_sphere : Sphere ℝ).hit Real.sqrt example_ray 0.001 ⊤ = some example_rec ∧
      ((example_rec : hit_record ℝ).p - (example_sphere : Sphere ℝ).center).length_squared
        = (example_sphere : Sphere ℝ).radius * (example_sphere : Sphere ℝ).radius ∧
      (example_sphere : Sphere ℝ).hit Real.sqrt away_ray 0.001 ⊤ = none ∧
      (∀ t : ℝ, 0.001 ≤ t → (t : WithTop ℝ) ≤ ⊤ →
        ((away_ray : Ray ℝ).at t - (example_sphere : Sphere ℝ).center).length_squared
          ≠ (example_sphere : Sphere ℝ).radius * (example_sphere : Sphere ℝ).radius) :=
  ⟨isSqrt_real, example_ray_direction_ne, example_sphere_hit,
    ((Sphere_hit_sound_and_complete Real.sqrt isSqrt_real example_sphere example_ray 0.001 ⊤
      example_ray_direction_ne).1 example_rec example_sphere_hit).2.1,
    away_ray_miss,
    (Sphere_hit_sound_and_complete Real.sqrt isSqrt_real example_sphere away_ray 0.001 ⊤
      (by simp [away_ray, Ray.direction])).2 away_ray_miss⟩

/-- C4: the normal of every record that `Sphere::hit` reports (radius non-zero, ray
direction non-zero) has length exactly 1 and does not point along the ray:
`dot(ray.direction, rec.normal) ≤ 0`. -/
theorem Sphere_hit_normal_unit_and_against_ray (sqrt : K → K) (hsqrt : IsSqrt sqrt)
    (s : Sphere K) (r : Ray K) (t_min : K) (t_max : WithTop K) (rec : hit_record K)
    (hrad : s.radius ≠ 0) (hdir : r.direction ≠ ⟨0, 0, 0⟩)
    (h : s.hit sqrt r t_min t_max = some rec) :
    rec.normal.length_squared = 1 ∧ rec.normal.length sqrt = 1 ∧
      dot r.direction rec.normal ≤ 0 := by
  obtain ⟨hrec, hon⟩ := Sphere.hit_some_root sqrt hsqrt s r hdir t_min t_max rec h
  obtain ⟨h1, h2, _⟩ := hit_record.set_face_normal_spec (s.fill_record r rec.t) r
    ((r.at rec.t - s.center) / s.radius)
  rw [← Sphere.fill_record_normal, ← hrec] at h1 h2
  have hlen : rec.normal.length_squared = 1 := by
    rw [h1, Vec3.length_squared_div, hon]
    exact div_self (mul_ne_zero hrad hrad)
  refine ⟨hlen, ?_, h2⟩
  unfold Vec3.length
  rw [hlen]
  exact hsqrt.sqrt_one

/-- C4 at a concrete input: the record of the centre ray on the unit sphere. -/
theorem Sphere_hit_normal_unit_and_against_ray_witness :
    IsSqrt Real.sqrt ∧ (example_sphere : Sphere ℝ).radius ≠ 0 ∧
      (example_ray : Ray ℝ).direction ≠ ⟨0, 0, 0⟩ ∧
      (example_sphere : Sphere ℝ).hit Real.sqrt example_ray 0.001 ⊤ = some example_rec ∧
      ((example_rec : hit_record ℝ).normal.length_squared = 1 ∧
        (example_rec : hit_record ℝ).normal.length Real.sqrt = 1 ∧
        dot (example_ray : Ray ℝ).direction (example_rec : hit_record ℝ).normal ≤ 0) :=
  ⟨isSqrt_real, by simp [example_sphere], example_ray_direction_ne, example_sphere_hit,
    Sphere_hit_normal_unit_and_against_ray Real.sqrt isSqrt_real example_sphere example_ray
      0.001 ⊤ example_rec (by simp [example_sphere]) example_ray_direction_ne
      example_sphere_hit⟩

/-- C5 (counterexample): the ray from `(-1,1,0)` along `(1,0,0)` touches the unit
sphere at `(0,1,0)`; `Sphere::hit` reports the hit and the stored normal
`(0,-1,0)` is perpendicular to the ray: the dot product is 0, not negative. -/
theorem set_face_normal_tangent_not_strict :
    (example_sphere : Sphere ℝ).hit Real.sqrt tangent_ray 0.001 ⊤ = some tangent_rec ∧
      dot (tangent_ray : Ray ℝ).direction (tangent_rec : hit_record ℝ).normal = 0 ∧
      ¬ (dot (tangent_ray : Ray ℝ).direction (tangent_rec : hit_record ℝ).normal < 0) := by
  refine ⟨tangent_hit, ?_, ?_⟩ <;> simp [dot, tangent_ray, tangent_rec, Ray.direction]

/-- C5 (amended): after `set_face_normal` the stored normal satisfies
`dot(ray.direction, normal) ≤ 0` for every ray and every outward normal, and the
inequality is strict exactly when the outward normal is not perpendicular to the
ray direction; the same holds for the record `Sphere::hit` fills in. -/
theorem set_face_normal_against_ray (rec : hit_record K) (r : Ray K)
    (outward_normal : Vec3 K) (s : Sphere K) (root : K) :
    (dot r.direction (rec.set_face_normal r outward_normal).normal ≤ 0 ∧
      (dot r.direction (rec.set_face_normal r outward_normal).normal < 0 ↔
        dot r.direction outward_normal ≠ 0)) ∧
    (dot r.direction (s.fill_record r root).normal ≤ 0 ∧
      (dot r.direction (s.fill_record r root).normal < 0 ↔
        dot r.direction ((r.at root - s.center) / s.radius) ≠ 0)) := by
  refine ⟨(hit_record.set_face_normal_spec rec r outward_normal).2, ?_⟩
  rw [Sphere.fill_record_normal]
  exact (hit_record.set_face_normal_spec _ r _).2

/-- C6: with a positive depth budget and an empty scene `ray_color` returns the
background gradient `(1-t)*(1,1,1) + t*(0.5,0.7,1.0)`, `t = 0.5*(unit(direction).y + 1)`;
a straight-down ray yields `(1,1,1)` and a straight-up ray `(0.5,0.7,1.0)`. -/
theorem ray_color_empty_scene (sqrt : K → K) (hsqrt : IsSqrt sqrt) (eps : K)
    (draws : Nat → Draws K) (r : Ray K) (depth : Int) (hdepth : 0 < depth) :
    ray_color sqrt eps draws r ⟨[]⟩ depth =
        (1.0 - 0.5 * ((unit_vector sqrt r.direction).y + 1.0)) * (⟨1.0, 1.0, 1.0⟩ : Vec3 K)
          + (0.5 * ((unit_vector sqrt r.direction).y + 1.0)) * (⟨0.5, 0.7, 1.0⟩ : Vec3 K) ∧
      (∀ k : K, 0 < k → r.direction = k * (⟨0, -1, 0⟩ : Vec3 K) →
        ray_color sqrt eps draws r ⟨[]⟩ depth = ⟨1, 1, 1⟩) ∧
      (∀ k : K, 0 < k → r.direction = k * (⟨0, 1, 0⟩ : Vec3 K) →
        ray_color sqrt eps draws r ⟨[]⟩ depth = ⟨0.5, 0.7, 1.0⟩) := by
  have hgen := ray_color_of_miss sqrt eps draws r ⟨[]⟩ depth hdepth
    (Hittable_list.hit_nil sqrt r 0.001 ⊤)
  refine ⟨hgen, ?_, ?_⟩
  · intro k hk hdir
    have hy : (unit_vector sqrt r.direction).y = -1 := by
      rw [hdir]
      have hl : Vec3.length sqrt (k * (⟨0, -1, 0⟩ : Vec3 K)) = k := by
        have : (k * (⟨0, -1, 0⟩ : Vec3 K)).length_squared = k * k := by
          simp [length_squared]
        rw [Vec3.length, this, hsqrt.sqrt_mul_self (le_of_lt hk)]
      simp only [unit_vector, hl, Vec3.div_y, Vec3.smul_y]
      field_simp
    rw [hgen, hy]
    ext <;> simp <;> norm_num
  · intro k hk hdir
    have hy : (unit_vector sqrt r.direction).y = 1 := by
      rw [hdir]
      have hl : Vec3.length sqrt (k * (⟨0, 1, 0⟩ : Vec3 K)) = k := by
        have : (k * (⟨0, 1, 0⟩ : Vec3 K)).length_squared = k * k := by
          simp [length_squared]
        rw [Vec3.length, this, hsqrt.sqrt_mul_self (le_of_lt hk)]
      simp only [unit_vector, hl, Vec3.div_y, Vec3.smul_y]
      field_simp
    rw [hgen, hy]
    ext <;> simp <;> norm_num

/-- C6 at a concrete input: the rays along `(0,-2,0)` and `(0,2,0)` in the empty
scene with budget 50. -/
theorem ray_color_empty_scene_witness :
    IsSqrt Real.sqrt ∧ (0 : Int) < 50 ∧
      ray_color Real.sqrt 0.00000001 example_draws ⟨⟨0, 0, 0⟩, ⟨0, -2, 0⟩⟩ ⟨[]⟩ 50
        = (⟨1, 1, 1⟩ : Vec3 ℝ) ∧
      ray_color Real.sqrt 0.00000001 example_draws ⟨⟨0, 0, 0⟩, ⟨0, 2, 0⟩⟩ ⟨[]⟩ 50
        = (⟨0.5, 0.7, 1.0⟩ : Vec3 ℝ) :=
  ⟨isSqrt_real, by norm_num,
    (ray_color_empty_scene Real.sqrt isSqrt_real 0.00000001 example_draws
      ⟨⟨0, 0, 0⟩, ⟨0, -2, 0⟩⟩ 50 (by norm_num)).2.1 2 (by norm_num)
        (by simp [Ray.direction, Vec3.ext_iff]),
    (ray_color_empty_scene Real.sqrt isSqrt_real 0.00000001 example_draws
      ⟨⟨0, 0, 0⟩, ⟨0, 2, 0⟩⟩ 50 (by norm_num)).2.2 2 (by norm_num)
        (by simp [Ray.direction, Vec3.ext_iff])⟩

/-- C7: a ray that starts strictly outside a sphere and is aimed away from it
(`dot(C - origin, direction) ≤ 0`, direction non-zero) is reported as a miss by
`Sphere::hit` on every range with `t_min ≥ 0`. -/
theorem Sphere_hit_none_of_aimed_away (sqrt : K → K) (hsqrt : IsSqrt sqrt) (s : Sphere K)
    (r : Ray K) (t_min : K) (t_max : WithTop K) (hdir : r.direction ≠ ⟨0, 0, 0⟩)
    (hout : (r.origin - s.center).length_squared > s.radius * s.radius)
    (haway : dot (s.center - r.origin) r.direction ≤ 0) (hmin : 0 ≤ t_min) :
    s.hit sqrt r t_min t_max = none := by
  have ha := Sphere.quad_a_pos r hdir
  have hc : 0 < Sphere.quad_c s r := by unfold Sphere.quad_c; linarith
  have hb : 0 ≤ Sphere.half_b s r := by
    have : Sphere.half_b s r = -dot (s.center - r.origin) r.direction := by
      simp only [Sphere.half_b, dot, Vec3.sub_x, Vec3.sub_y, Vec3.sub_z]
      ring
    rw [this]; linarith
  rw [Sphere.hit_none_iff]
  by_cases hd : Sphere.discriminant s r < 0
  · exact Or.inl hd
  · right
    have hd' := not_lt.mp hd
    obtain ⟨h0, hq⟩ := hsqrt _ hd'
    have hlt : sqrt (Sphere.discriminant s r) < Sphere.half_b s r := by
      by_contra hge
      have hge' := not_lt.mp hge
      have h1 : Sphere.half_b s r * Sphere.half_b s r ≤
          sqrt (Sphere.discriminant s r) * sqrt (Sphere.discriminant s r) :=
        mul_le_mul hge' hge' hb h0
      rw [hq] at h1
      unfold Sphere.discriminant at h1
      have := mul_pos ha hc
      linarith
    have h2 : Sphere.root2 sqrt s r < 0 := by
      unfold Sphere.root2
      apply div_neg_of_neg_of_pos _ ha
      linarith
    have h1 : Sphere.root1 sqrt s r < 0 :=
      lt_of_le_of_lt (Sphere.root1_le_root2 sqrt hsqrt s r ha hd') h2
    exact ⟨fun h => absurd (le_trans hmin h.1) (not_le.mpr h1),
      fun h => absurd (le_trans hmin h.1) (not_le.mpr h2)⟩

/-- C7 at a concrete input: the ray from `(0,0,-3)` along `(0,0,-1)` misses the
unit sphere at the origin on the range `(0.001, ∞)`. -/
theorem Sphere_hit_none_of_aimed_away_witness :
    IsSqrt Real.sqrt ∧ (away_ray : Ray ℝ).direction ≠ ⟨0, 0, 0⟩ ∧
      ((away_ray : Ray ℝ).origin - (example_sphere : Sphere ℝ).center).length_squared
        > (example_sphere : Sphere ℝ).radius * (example_sphere : Sphere ℝ).radius ∧
      dot ((example_sphere : Sphere ℝ).center - (away_ray : Ray ℝ).origin)
        (away_ray : Ray ℝ).direction ≤ 0 ∧
      (0 : ℝ) ≤ 0.001 ∧
      (example_sphere : Sphere ℝ).hit Real.sqrt away_ray 0.001 ⊤ = none :=
  ⟨isSqrt_real, by simp [away_ray, Ray.direction],
    by norm_num [away_ray, example_sphere, Ray.origin, length_squared],
    by norm_num [away_ray, example_sphere, Ray.origin, Ray.direction, dot],
    by norm_num,
    Sphere_hit_none_of_aimed_away Real.sqrt isSqrt_real example_sphere away_ray 0.001 ⊤
      (by simp [away_ray, Ray.direction])
      (by norm_num [away_ray, example_sphere, Ray.origin, length_squared])
      (by norm_num [away_ray, example_sphere, Ray.origin, Ray.direction, dot])
      (by norm_num)⟩

/-- C8: `Lambertian::scatter` always returns true, sets the attenuation to the
albedo and starts the scattered ray at the hit point `rec.p`, for every hit
record, incoming ray and random unit vector. -/
theorem Lambertian_scatter_always (eps : K) (m : Lambertian K) (r_in : Ray K)
    (rec : hit_record K) (d : Draws K) (sqrt : K → K) :
    (Lambertian.scatter eps m r_in rec d.random_unit_vector).ok = true ∧
      (Lambertian.scatter eps m r_in rec d.random_unit_vector).attenuation = m.albedo ∧
      (Lambertian.scatter eps m r_in rec d.random_unit_vector).scattered.origin = rec.p ∧
      Material.scatter sqrt eps d (Material.lambertian m) r_in rec =
        Lambertian.scatter eps m r_in rec d.random_unit_vector :=
  ⟨rfl, rfl, rfl, rfl⟩

/-- C9: a `Metal` constructed with fuzz 0 scatters into exactly
`reflect(unit(incoming.direction), rec.normal)`, where `reflect(v,n) = v - 2*dot(v,n)*n`,
from the origin `rec.p`, and returns false exactly when
`dot(scattered.direction, rec.normal) ≤ 0`. -/
theorem Metal_scatter_specular (sqrt : K → K) (a : Vec3 K) (r_in : Ray K)
    (rec : hit_record K) (random_in_unit_sphere : Vec3 K) :
    (Metal.Metal a 0).fuzz = 0 ∧
      (Metal.scatter sqrt (Metal.Metal a 0) r_in rec random_in_unit_sphere).scattered.direction =
        reflect (unit_vector sqrt r_in.direction) rec.normal ∧
      reflect (unit_vector sqrt r_in.direction) rec.normal =
        unit_vector sqrt r_in.direction
          - (2 * dot (unit_vector sqrt r_in.direction) rec.normal) * rec.normal ∧
      (Metal.scatter sqrt (Metal.Metal a 0) r_in rec random_in_unit_sphere).scattered.origin =
        rec.p ∧
      ((Metal.scatter sqrt (Metal.Metal a 0) r_in rec random_in_unit_sphere).ok = false ↔
        dot (Metal.scatter sqrt (Metal.Metal a 0) r_in rec
          random_in_unit_sphere).scattered.direction rec.normal ≤ 0) := by
  have hf : (Metal.Metal a (0 : K)).fuzz = 0 := by simp [Metal.Metal]
  refine ⟨hf, ?_, rfl, rfl, ?_⟩
  · simp only [Metal.scatter, Ray.direction, hf, Vec3.add_zero_smul]
  · simp only [Metal.scatter, Ray.direction, hf, Vec3.add_zero_smul, decide_eq_false_iff_not,
      gt_iff_lt, not_lt]

/-- C10 (counterexample): a ray with unit direction `(3/5,-4/5,0)` meets a
matched-index dielectric whose unit normal `(0,1,0)` is oriented against it;
with the draw `0 ∈ [0,1)` the Schlick reflectance `(1 - 4/5)^5` exceeds the draw
and the ray is reflected into `(3/5,4/5,0)`, not passed on unbent. -/
theorem Dielectric_matched_index_reflects :
    (oblique_rec : hit_record ℝ).normal.length_squared = 1 ∧
      dot (oblique_ray : Ray ℝ).direction (oblique_rec : hit_record ℝ).normal ≤ 0 ∧
      unit_vector Real.sqrt (oblique_ray : Ray ℝ).direction = ⟨3 / 5, -4 / 5, 0⟩ ∧
      (Dielectric.scatter Real.sqrt (Dielectric.Dielectric 1) oblique_ray oblique_rec
        0).scattered.direction = ⟨3 / 5, 4 / 5, 0⟩ ∧
      (Dielectric.scatter Real.sqrt (Dielectric.Dielectric 1) oblique_ray oblique_rec
        0).scattered.direction ≠ unit_vector Real.sqrt (oblique_ray : Ray ℝ).direction := by
  have hn : (oblique_rec : hit_record ℝ).normal.length_squared = 1 := by
    norm_num [oblique_rec, length_squared]
  have hag : dot (oblique_ray : Ray ℝ).direction (oblique_rec : hit_record ℝ).normal ≤ 0 := by
    norm_num [oblique_rec, oblique_ray, Ray.direction, dot]
  have hdir : (Dielectric.scatter Real.sqrt (Dielectric.Dielectric 1) oblique_ray oblique_rec
      0).scattered.direction = (⟨3 / 5, 4 / 5, 0⟩ : Vec3 ℝ) := by
    rw [Dielectric.scatter_matched_direction Real.sqrt isSqrt_real oblique_ray oblique_rec 0
      oblique_ray_direction_ne hn hag, oblique_cos_theta, if_pos (by norm_num),
      oblique_ray_unit]
    norm_num [reflect, dot, oblique_rec, Vec3.ext_iff]
  refine ⟨hn, hag, oblique_ray_unit, hdir, ?_⟩
  rw [hdir, oblique_ray_unit]
  norm_num [Vec3.ext_iff]

/-- C10 (amended): a `Dielectric` with index of refraction 1 leaves the normalised
incoming direction unchanged whenever the random draw is at least
`(1 - cos_theta)^5`, the Schlick reflectance at matched indices; for a smaller
draw the ray is reflected.  The unit normal is oriented against the ray. -/
theorem Dielectric_scatter_matched_index (sqrt : K → K) (hsqrt : IsSqrt sqrt) (r_in : Ray K)
    (rec : hit_record K) (random_double : K) (hdir : r_in.direction ≠ ⟨0, 0, 0⟩)
    (hn : rec.normal.length_squared = 1) (hagainst : dot r_in.direction rec.normal ≤ 0) :
    ((1 - dot (-(unit_vector sqrt r_in.direction)) rec.normal) ^ 5 ≤ random_double →
        (Dielectric.scatter sqrt (Dielectric.Dielectric 1) r_in rec
          random_double).scattered.direction = unit_vector sqrt r_in.direction) ∧
      (random_double < (1 - dot (-(unit_vector sqrt r_in.direction)) rec.normal) ^ 5 →
        (Dielectric.scatter sqrt (Dielectric.Dielectric 1) r_in rec
          random_double).scattered.direction =
            reflect (unit_vector sqrt r_in.direction) rec.normal) := by
  rw [Dielectric.scatter_matched_direction sqrt hsqrt r_in rec random_double hdir hn hagainst]
  constructor
  · intro h
    rw [if_neg (not_lt.mpr h)]
  · intro h
    rw [if_pos h]

/-- C10 (amended) at a concrete input: the oblique ray with draw `0.5`, which is
at least `(1 - 4/5)^5`, leaves along its own unit direction. -/
theorem Dielectric_scatter_matched_index_witness :
    IsSqrt Real.sqrt ∧ (oblique_ray : Ray ℝ).direction ≠ ⟨0, 0, 0⟩ ∧
      (oblique_rec : hit_record ℝ).normal.length_squared = 1 ∧
      dot (oblique_ray : Ray ℝ).direction (oblique_rec : hit_record ℝ).normal ≤ 0 ∧
      (1 - dot (-(unit_vector Real.sqrt (oblique_ray : Ray ℝ).direction))
        (oblique_rec : hit_record ℝ).normal) ^ 5 ≤ (0.5 : ℝ) ∧
      (Dielectric.scatter Real.sqrt (Dielectric.Dielectric 1) oblique_ray oblique_rec
        0.5).scattered.direction = unit_vector Real.sqrt (oblique_ray : Ray ℝ).direction :=
  have hn : (oblique_rec : hit_record ℝ).normal.length_squared = 1 := by
    norm_num [oblique_rec, length_squared]
  have hag : dot (oblique_ray : Ray ℝ).direction (oblique_rec : hit_record ℝ).normal ≤ 0 := by
    norm_num [oblique_rec, oblique_ray, Ray.direction, dot]
  have hdraw : (1 - dot (-(unit_vector Real.sqrt (oblique_ray : Ray ℝ).direction))
      (oblique_rec : hit_record ℝ).normal) ^ 5 ≤ (0.5 : ℝ) := by
    rw [oblique_cos_theta]; norm_num
  ⟨isSqrt_real, oblique_ray_direction_ne, hn, hag, hdraw,
    (Dielectric_scatter_matched_index Real.sqrt isSqrt_real oblique_ray oblique_rec 0.5
      oblique_ray_direction_ne hn hag).1 hdraw⟩

/-- C11 (counterexample): albedo `(0.5,0.5,0.5)`, field of view 90, aspect ratio 1,
focus distance 2: the centre ray hits the sphere, the Lambertian bounce is traced
with budget 0, and the colour is `(0,0,0)`: no channel is above 0. -/
theorem end_to_end_center_pixel_is_black :
    ray_color Real.sqrt 0.00000001 example_draws
        ((axis_camera Real.sqrt Real.tan 90 1 2).get_ray 0.5 0.5 ⟨0, 0, 0⟩)
        (single_sphere_world (⟨0.5, 0.5, 0.5⟩ : Vec3 ℝ)) 1 = ⟨0, 0, 0⟩ ∧
      ¬ (0 < (ray_color Real.sqrt 0.00000001 example_draws
        ((axis_camera Real.sqrt Real.tan 90 1 2).get_ray 0.5 0.5 ⟨0, 0, 0⟩)
        (single_sphere_world (⟨0.5, 0.5, 0.5⟩ : Vec3 ℝ)) 1).x) := by
  have h := center_pixel_black Real.sqrt Real.tan isSqrt_real 0.00000001 example_draws
    (⟨0.5, 0.5, 0.5⟩ : Vec3 ℝ) 90 1 2 ⟨0, 0, 0⟩ (by norm_num) (by norm_num)
  refine ⟨h, ?_⟩
  rw [h]
  simp

/-- C11 (amended): end-to-end, for the scene of one Lambertian sphere of radius 0.5
at the origin with albedo `A` (components positive), the camera at `(0,0,2)`
looking at the origin (up `(0,1,0)`, aperture 0, any field of view and aspect
ratio, focus distance in `(0, 2500]`), the centre ray `get_ray(0.5, 0.5)` and max
depth 1, the colour `ray_color` returns is exactly black: in every channel
`0 = colour < A`, for every random scatter direction and lens sample. -/
theorem end_to_end_center_pixel (sqrt tan : K → K) (hsqrt : IsSqrt sqrt) (eps : K)
    (draws : Nat → Draws K) (a : Vec3 K) (vfov aspect_ratio focus_dist : K) (rd : Vec3 K)
    (hf0 : 0 < focus_dist) (hf1 : focus_dist ≤ 2500)
    (ha : 0 < a.x ∧ 0 < a.y ∧ 0 < a.z) :
    ray_color sqrt eps draws
        ((axis_camera sqrt tan vfov aspect_ratio focus_dist).get_ray 0.5 0.5 rd)
        (single_sphere_world a) 1 = ⟨0, 0, 0⟩ ∧
      (ray_color sqrt eps draws
        ((axis_camera sqrt tan vfov aspect_ratio focus_dist).get_ray 0.5 0.5 rd)
        (single_sphere_world a) 1).x < a.x ∧
      (ray_color sqrt eps draws
        ((axis_camera sqrt tan vfov aspect_ratio focus_dist).get_ray 0.5 0.5 rd)
        (single_sphere_world a) 1).y < a.y ∧
      (ray_color sqrt eps draws
        ((axis_camera sqrt tan vfov aspect_ratio focus_dist).get_ray 0.5 0.5 rd)
        (single_sphere_world a) 1).z < a.z := by
  rw [center_pixel_black sqrt tan hsqrt eps draws a vfov aspect_ratio focus_dist rd hf0 hf1]
  exact ⟨rfl, ha.1, ha.2.1, ha.2.2⟩

/-- C11 (amended) at a concrete input: albedo `(0.5,0.5,0.5)`, field of view 90,
aspect ratio 1, focus distance 2 over the reals. -/
theorem end_to_end_center_pixel_witness :
    IsSqrt Real.sqrt ∧ (0 : ℝ) < 2 ∧ (2 : ℝ) ≤ 2500 ∧
      ((0 : ℝ) < (⟨0.5, 0.5, 0.5⟩ : Vec3 ℝ).x ∧ (0 : ℝ) < (⟨0.5, 0.5, 0.5⟩ : Vec3 ℝ).y ∧
        (0 : ℝ) < (⟨0.5, 0.5, 0.5⟩ : Vec3 ℝ).z) ∧
      ray_color Real.sqrt 0.00000001 example_draws
        ((axis_camera Real.sqrt Real.tan 90 1 2).get_ray 0.5 0.5 ⟨0, 0, 0⟩)
        (single_sphere_world (⟨0.5, 0.5, 0.5⟩ : Vec3 ℝ)) 1 = ⟨0, 0, 0⟩ :=
  ⟨isSqrt_real, by norm_num, by norm_num, by norm_num,
    (end_to_end_center_pixel Real.sqrt Real.tan isSqrt_real 0.00000001 example_draws
      (⟨0.5, 0.5, 0.5⟩ : Vec3 ℝ) 90 1 2 ⟨0, 0, 0⟩ (by norm_num) (by norm_num)
      (by norm_num)).1⟩

/-- C12: for every camera, every `(s,t)` and every lens sample, the ray of `get_ray`
starts at `origin + offset` with `offset = lens_radius*(rd.x*u + rd.y*v)`, and its
point at parameter 1 is `lower_left_corner + s*horizontal + t*vertical`, the same
for every lens sample; a camera constructed with aperture 0 starts every ray at
`lookfrom`. -/
theorem Camera_get_ray_converges (cam : Camera K) (s t : K) (rd : Vec3 K) :
    (cam.get_ray s t rd).origin =
        cam.origin + cam.lens_radius * (rd.x * cam.u + rd.y * cam.v) ∧
      (cam.get_ray s t rd).at 1 =
        cam.lower_left_corner + s * cam.horizontal + t * cam.vertical ∧
      (∀ rd1 : Vec3 K, (cam.get_ray s t rd1).at 1 = (cam.get_ray s t rd).at 1) ∧
      (∀ (sqrt tan : K → K) (lookfrom lookat vup : Vec3 K) (vfov aspect_ratio focus_dist : K),
        ((Camera.Camera sqrt tan lookfrom lookat vup vfov aspect_ratio 0 focus_dist).get_ray
          s t rd).origin = lookfrom) := by
  have hat : ∀ rd1 : Vec3 K, (cam.get_ray s t rd1).at 1 =
      cam.lower_left_corner + s * cam.horizontal + t * cam.vertical := by
    intro rd1
    ext <;> simp [Camera.get_ray, Ray.at]
  refine ⟨?_, hat rd, fun rd1 => by rw [hat rd1, hat rd], ?_⟩
  · ext <;> simp [Camera.get_ray, Ray.origin] <;> ring
  · intro sqrt tan lookfrom lookat vup vfov aspect_ratio focus_dist
    obtain ⟨h1, h2⟩ := Camera.lens_radius_of_aperture_zero sqrt tan lookfrom lookat vup vfov
      aspect_ratio focus_dist
    ext <;> simp [Camera.get_ray, Ray.origin, h1, h2]

/-- C13: `ray_color` terminates for every ray, scene, integer depth budget and
sequence of random draws: run with any bound above `max(depth, 0)` on the number
of nested activations it returns, with the colour of `ray_color`; the run makes
at most `max(depth, 0)` calls of `world.hit` and at most `max(depth, 0)` nested
recursive calls (`depth.toNat` is `max(depth, 0)`). -/
theorem ray_color_terminates (sqrt : K → K) (eps : K) (world : Hittable_list K) (fuel : Nat)
    (draws : Nat → Draws K) (r : Ray K) (depth : Int) (hfuel : depth.toNat < fuel) :
    ∃ run : ray_color_run K,
      ray_color_fuel sqrt eps world fuel draws r depth = some run ∧
        run.colour = ray_color sqrt eps draws r world depth ∧
        run.hits ≤ depth.toNat ∧ run.calls ≤ depth.toNat := by
  induction fuel generalizing draws r depth with
  | zero => exact absurd hfuel (Nat.not_lt_zero _)
  | succ fuel ih =>
    rw [ray_color_fuel]
    rcases le_or_lt depth 0 with h0 | h0
    · rw [if_pos h0, ray_color_black_of_nonpos sqrt eps draws r world depth h0]
      exact ⟨_, rfl, rfl, Nat.zero_le _, Nat.zero_le _⟩
    · rw [if_neg (not_le.mpr h0)]
      have hpos : 1 ≤ depth.toNat := by omega
      cases hhit : world.hit sqrt r 0.001 ⊤ with
      | none =>
        rw [ray_color_of_miss sqrt eps draws r world depth h0 hhit]
        exact ⟨_, rfl, rfl, hpos, Nat.zero_le _⟩
      | some rec =>
        rw [ray_color_of_hit sqrt eps draws r world depth h0 rec hhit]
        simp only []
        by_cases hok : (rec.mat_ptr.scatter sqrt eps (draws 0) r rec).ok = true
        · rw [if_pos hok, if_pos hok]
          obtain ⟨inner, h1, h2, h3, h4⟩ := ih (fun n => draws (n + 1))
            (rec.mat_ptr.scatter sqrt eps (draws 0) r rec).scattered (depth - 1) (by omega)
          rw [h1]
          refine ⟨_, rfl, ?_, ?_, ?_⟩
          · simp only [h2]
          · simp only []
            omega
          · simp only []
            omega
        · rw [if_neg hok, if_neg hok]
          exact ⟨_, rfl, rfl, hpos, Nat.zero_le _⟩

/-- C13 at a concrete input: budget 50 on the two-sphere scene, run with the bound
51. -/
theorem ray_color_terminates_witness :
    (50 : Int).toNat < 51 ∧
      ∃ run : ray_color_run ℝ,
        ray_color_fuel Real.sqrt 0.00000001 example_world 51 example_draws example_ray 50
          = some run ∧
        run.colour = ray_color Real.sqrt 0.00000001 example_draws example_ray example_world 50 ∧
        run.hits ≤ (50 : Int).toNat ∧ run.calls ≤ (50 : Int).toNat :=
  ⟨by decide, ray_color_terminates Real.sqrt 0.00000001 example_world 51 example_draws
    example_ray 50 (by decide)⟩

/-- C14 (counterexample): `Metal(a, -1)` stores the fuzz `-1`, which is below 0. -/
theorem Metal_fuzz_negative :
    (Metal.Metal (⟨0.7, 0.6, 0.5⟩ : Vec3 ℝ) (-1)).fuzz = -1 ∧
      ¬ (0 ≤ (Metal.Metal (⟨0.7, 0.6, 0.5⟩ : Vec3 ℝ) (-1)).fuzz ∧
        (Metal.Metal (⟨0.7, 0.6, 0.5⟩ : Vec3 ℝ) (-1)).fuzz ≤ 1) := by
  have h : (Metal.Metal (⟨0.7, 0.6, 0.5⟩ : Vec3 ℝ) (-1)).fuzz = -1 := by
    simp [Metal.Metal]
  rw [h]
  norm_num

/-- C14 (amended): for every colour `a` and every real `f` the fuzz that `Metal(a, f)`
stores is `min(f, 1)`: it is at most 1, and it lies in `[0,1]` whenever `f ≥ 0`; a
negative `f` is stored unchanged. -/
theorem Metal_fuzz_clamped_above (a : Vec3 K) (f : K) :
    (Metal.Metal a f).fuzz = min f 1 ∧ (Metal.Metal a f).fuzz ≤ 1 ∧
      (0 ≤ f → 0 ≤ (Metal.Metal a f).fuzz ∧ (Metal.Metal a f).fuzz ≤ 1) ∧
      (f < 0 → (Metal.Metal a f).fuzz = f) := by
  have h : (Metal.Metal a f).fuzz = min f 1 := by
    simp only [Metal.Metal]
    by_cases hf : f < 1
    · rw [if_pos hf, min_eq_left (le_of_lt hf)]
    · rw [if_neg hf, min_eq_right (not_lt.mp hf)]
  refine ⟨h, ?_, ?_, ?_⟩
  · rw [h]; exact min_le_right _ _
  · intro hf
    rw [h]
    exact ⟨le_min hf zero_le_one, min_le_right _ _⟩
  · intro hf
    rw [h]
    exact min_eq_left (le_of_lt (lt_trans hf one_pos))

/-- C15 (counterexample): the centre ray meets the unit sphere at the roots 2 and 4;
with `t_min = 2`, and likewise with `t_max = 2`, `Sphere::hit` reports the hit at
`t = 2`, on the boundary of the range. -/
theorem Sphere_hit_accepts_boundary :
    (example_sphere : Sphere ℝ).hit Real.sqrt example_ray 2 ⊤ = some example_rec ∧
      (example_sphere : Sphere ℝ).hit Real.sqrt example_ray 0.001 ((2 : ℝ) : WithTop ℝ)
        = some example_rec ∧
      (example_rec : hit_record ℝ).t = 2 ∧ ¬ ((2 : ℝ) < (example_rec : hit_record ℝ).t) :=
  ⟨example_sphere_hit_at_t_min, example_sphere_hit_at_t_max, rfl, by simp [example_rec]⟩

/-- C15 (amended): `Sphere::hit` accepts a root exactly when it lies in the closed
interval `[t_min, t_max]`: every reported hit has `t_min ≤ rec.t ≤ t_max`; the
smaller root is reported when it lies in the closed interval, a root equal to
`t_min` or `t_max` included; otherwise the larger root is reported when it lies
in the closed interval, and else no hit. -/
theorem Sphere_hit_closed_range (sqrt : K → K) (s : Sphere K) (r : Ray K) (t_min : K)
    (t_max : WithTop K) :
    (∀ rec : hit_record K, s.hit sqrt r t_min t_max = some rec →
        t_min ≤ rec.t ∧ (rec.t : WithTop K) ≤ t_max) ∧
      (0 ≤ Sphere.discriminant s r → t_min ≤ Sphere.root1 sqrt s r →
        ((Sphere.root1 sqrt s r : K) : WithTop K) ≤ t_max →
        s.hit sqrt r t_min t_max = some (s.fill_record r (Sphere.root1 sqrt s r))) ∧
      (0 ≤ Sphere.discriminant s r →
        ¬ (t_min ≤ Sphere.root1 sqrt s r ∧ ((Sphere.root1 sqrt s r : K) : WithTop K) ≤ t_max) →
        t_min ≤ Sphere.root2 sqrt s r → ((Sphere.root2 sqrt s r : K) : WithTop K) ≤ t_max →
        s.hit sqrt r t_min t_max = some (s.fill_record r (Sphere.root2 sqrt s r))) ∧
      (¬ (t_min ≤ Sphere.root1 sqrt s r ∧ ((Sphere.root1 sqrt s r : K) : WithTop K) ≤ t_max) →
        ¬ (t_min ≤ Sphere.root2 sqrt s r ∧ ((Sphere.root2 sqrt s r : K) : WithTop K) ≤ t_max) →
        s.hit sqrt r t_min t_max = none) := by
  refine ⟨?_, ?_, ?_, ?_⟩
  · intro rec h
    obtain ⟨_, ⟨h1, hrec⟩ | ⟨_, h2, hrec⟩⟩ := (Sphere.hit_some_iff sqrt s r t_min t_max rec).mp h
    · rw [hrec]; exact h1
    · rw [hrec]; exact h2
  · intro hd h1 h2
    exact (Sphere.hit_some_iff sqrt s r t_min t_max _).mpr ⟨hd, Or.inl ⟨⟨h1, h2⟩, rfl⟩⟩
  · intro hd h1 h2 h3
    exact (Sphere.hit_some_iff sqrt s r t_min t_max _).mpr ⟨hd, Or.inr ⟨h1, ⟨h2, h3⟩, rfl⟩⟩
  · intro h1 h2
    exact (Sphere.hit_none_iff sqrt s r t_min t_max).mpr (Or.inr ⟨h1, h2⟩)

/-- C16 (counterexample): two coincident unit spheres, the matte one first, the
glass one second, are both hit at the minimal `t = 2`; `Hittable_list::hit`
returns the record of the second, later member (glass), not of the first. -/
theorem Hittable_list_hit_tie_later_wins :
    (twin_world : Hittable_list ℝ).objects = [example_sphere, twin_sphere] ∧
      (example_sphere : Sphere ℝ).hit Real.sqrt example_ray 0.001 ⊤ = some example_rec ∧
      (twin_sphere : Sphere ℝ).hit Real.sqrt example_ray 0.001 ⊤ = some twin_rec ∧
      (example_rec : hit_record ℝ).t = (twin_rec : hit_record ℝ).t ∧
      (twin_world : Hittable_list ℝ).hit Real.sqrt example_ray 0.001 ⊤ = some twin_rec ∧
      (twin_rec : hit_record ℝ).mat_ptr ≠ (example_rec : hit_record ℝ).mat_ptr :=
  ⟨rfl, example_sphere_hit, twin_sphere_hit, rfl, twin_world_hit,
    by simp [twin_rec, example_rec, example_material]⟩

/-- C16 (amended): tie-break in `Hittable_list::hit`: the record returned is the one
the last member that hits at the minimal `t` reports; every member after it in
the scan hits strictly farther (or not at all), every member before it hits at
the same `t` or farther, so a later member hitting at an equal `t` replaces an
earlier one. -/
theorem Hittable_list_hit_tie_break (sqrt : K → K) (hsqrt : IsSqrt sqrt)
    (world : Hittable_list K) (r : Ray K) (hdir : r.direction ≠ ⟨0, 0, 0⟩) (t_min : K)
    (t_max : WithTop K) (rec : hit_record K) (h : world.hit sqrt r t_min t_max = some rec) :
    ∃ l1 s l2, world.objects = l1 ++ s :: l2 ∧ s.hit sqrt r t_min t_max = some rec ∧
      (∀ s1 ∈ l2, ∀ rec1, s1.hit sqrt r t_min t_max = some rec1 → rec.t < rec1.t) ∧
      (∀ s1 ∈ l1, ∀ rec1, s1.hit sqrt r t_min t_max = some rec1 → rec.t ≤ rec1.t) := by
  rcases Hittable_list.hit_loop_last sqrt hsqrt r hdir t_min t_max world.objects t_max none
    le_rfl (by simp) rec h with ⟨h1, _⟩ | ⟨l1, s, l2, h1, h2, h3⟩
  · exact absurd h1 (by simp)
  · refine ⟨l1, s, l2, h1, h2, h3, ?_⟩
    intro s1 hs1 rec1 hrec1
    exact (Hittable_list.hit_min sqrt hsqrt world r hdir t_min t_max rec h).2 s1
      (by rw [h1]; exact List.mem_append_left _ hs1) rec1 hrec1

/-- C16 (amended) at a concrete input: in the scene of two coincident spheres the
returned record is the one of the second member. -/
theorem Hittable_list_hit_tie_break_witness :
    IsSqrt Real.sqrt ∧ (example_ray : Ray ℝ).direction ≠ ⟨0, 0, 0⟩ ∧
      (twin_world : Hittable_list ℝ).hit Real.sqrt example_ray 0.001 ⊤ = some twin_rec ∧
      ∃ l1 s l2, (twin_world : Hittable_list ℝ).objects = l1 ++ s :: l2 ∧
        s.hit Real.sqrt example_ray 0.001 ⊤ = some twin_rec ∧
        (∀ s1 ∈ l2, ∀ rec1, s1.hit Real.sqrt example_ray 0.001 ⊤ = some rec1 →
          (twin_rec : hit_record ℝ).t < rec1.t) ∧
        (∀ s1 ∈ l1, ∀ rec1, s1.hit Real.sqrt example_ray 0.001 ⊤ = some rec1 →
          (twin_rec : hit_record ℝ).t ≤ rec1.t) :=
  ⟨isSqrt_real, example_ray_direction_ne, twin_world_hit,
    Hittable_list_hit_tie_break Real.sqrt isSqrt_real twin_world example_ray
      example_ray_direction_ne 0.001 ⊤ twin_rec twin_world_hit⟩

/-- C17 (counterexample): the ray from `(0,0,-3)` along `(0,0,2)` passes through the
centre of the unit sphere at the origin (at `t = 3/2`); the roots are 1 and 2, with
average `3/2`, while `dot(C - origin, unit(direction)) = 3`. -/
theorem Sphere_roots_average_not_unit_projection :
    (double_ray : Ray ℝ).direction ≠ ⟨0, 0, 0⟩ ∧
      (double_ray : Ray ℝ).at (3 / 2) = (example_sphere : Sphere ℝ).center ∧
      Sphere.root1 Real.sqrt (example_sphere : Sphere ℝ) double_ray = 1 ∧
      Sphere.root2 Real.sqrt (example_sphere : Sphere ℝ) double_ray = 2 ∧
      dot ((example_sphere : Sphere ℝ).center - (double_ray : Ray ℝ).origin)
        (unit_vector Real.sqrt (double_ray : Ray ℝ).direction) = 3 ∧
      (Sphere.root1 Real.sqrt (example_sphere : Sphere ℝ) double_ray
          + Sphere.root2 Real.sqrt (example_sphere : Sphere ℝ) double_ray) / 2 ≠
        dot ((example_sphere : Sphere ℝ).center - (double_ray : Ray ℝ).origin)
          (unit_vector Real.sqrt (double_ray : Ray ℝ).direction) := by
  have h1 : Sphere.root1 Real.sqrt (example_sphere : Sphere ℝ) double_ray = 1 := by
    rw [Sphere.root1, double_ray_discriminant, real_sqrt_four]
    norm_num [Sphere.half_b, Sphere.quad_a, example_sphere, double_ray, Ray.origin,
      Ray.direction, dot, length_squared]
  have h2 : Sphere.root2 Real.sqrt (example_sphere : Sphere ℝ) double_ray = 2 := by
    rw [Sphere.root2, double_ray_discriminant, real_sqrt_four]
    norm_num [Sphere.half_b, Sphere.quad_a, example_sphere, double_ray, Ray.origin,
      Ray.direction, dot, length_squared]
  have h3 : dot ((example_sphere : Sphere ℝ).center - (double_ray : Ray ℝ).origin)
      (unit_vector Real.sqrt (double_ray : Ray ℝ).direction) = 3 := by
    rw [double_ray_unit]
    norm_num [dot, example_sphere, double_ray, Ray.origin]
  refine ⟨by simp [double_ray, Ray.direction], ?_, h1, h2, h3, ?_⟩
  · norm_num [Ray.at, double_ray, example_sphere, Vec3.ext_iff]
  · rw [h1, h2, h3]
    norm_num

/-- C17 (amended): for every sphere and every ray the average of the two roots
`(-half_b - sqrt(disc))/a` and `(-half_b + sqrt(disc))/a` of `Sphere::hit` is
`dot(C - origin, direction) / |direction|^2`, which is
`dot(C - origin, unit(direction)) / |direction|`; it equals
`dot(C - origin, unit(direction))` when the direction has length 1. -/
theorem Sphere_roots_average (sqrt : K → K) (hsqrt : IsSqrt sqrt) (s : Sphere K) (r : Ray K) :
    (Sphere.root1 sqrt s r + Sphere.root2 sqrt s r) / 2 =
        dot (s.center - r.origin) r.direction / r.direction.length_squared ∧
      (Sphere.root1 sqrt s r + Sphere.root2 sqrt s r) / 2 =
        dot (s.center - r.origin) (unit_vector sqrt r.direction) / r.direction.length sqrt ∧
      (r.direction.length_squared = 1 →
        (Sphere.root1 sqrt s r + Sphere.root2 sqrt s r) / 2 =
          dot (s.center - r.origin) (unit_vector sqrt r.direction)) := by
  have havg := Sphere.roots_average sqrt s r
  have hlen := Vec3.length_mul_self sqrt hsqrt r.direction
  have hunit : dot (s.center - r.origin) (unit_vector sqrt r.direction) =
      dot (s.center - r.origin) r.direction / r.direction.length sqrt := by
    simp only [dot, unit_vector, Vec3.div_x, Vec3.div_y, Vec3.div_z]
    ring
  refine ⟨havg, ?_, ?_⟩
  · rw [havg, hunit, div_div, hlen]
  · intro h1
    have hl : r.direction.length sqrt = 1 := by
      unfold Vec3.length
      rw [h1]
      exact hsqrt.sqrt_one
    rw [havg, hunit, h1, hl]

/-- C17 (amended) at a concrete input: the ray from `(0,0,-3)` along `(0,0,2)` and
the unit sphere at the origin. -/
theorem Sphere_roots_average_witness :
    IsSqrt Real.sqrt ∧
      (Sphere.root1 Real.sqrt (example_sphere : Sphere ℝ) double_ray
          + Sphere.root2 Real.sqrt (example_sphere : Sphere ℝ) double_ray) / 2 =
        dot ((example_sphere : Sphere ℝ).center - (double_ray : Ray ℝ).origin)
          (double_ray : Ray ℝ).direction / (double_ray : Ray ℝ).direction.length_squared :=
  ⟨isSqrt_real, (Sphere_roots_average Real.sqrt isSqrt_real example_sphere double_ray).1⟩

/-- C18 (counterexample): two hits on the unit sphere (radius 1, `t_min ≥ 0`) whose
ray origin is strictly outside and whose `front_face` is false: the tangent ray
from `(-1,1,0)`, and the centre ray from `(0,0,-3)` with `t_min = 3`, which is
reported at the far root `t = 4`. -/
theorem Sphere_hit_front_face_false_outside :
    (example_sphere : Sphere ℝ).hit Real.sqrt tangent_ray 0.001 ⊤ = some tangent_rec ∧
      (tangent_rec : hit_record ℝ).front_face = false ∧
      ((tangent_ray : Ray ℝ).origin - (example_sphere : Sphere ℝ).center).length_squared
        > (example_sphere : Sphere ℝ).radius * (example_sphere : Sphere ℝ).radius ∧
      (example_sphere : Sphere ℝ).hit Real.sqrt example_ray 3 ⊤ = some back_rec ∧
      (back_rec : hit_record ℝ).front_face = false ∧
      ((example_ray : Ray ℝ).origin - (example_sphere : Sphere ℝ).center).length_squared
        > (example_sphere : Sphere ℝ).radius * (example_sphere : Sphere ℝ).radius :=
  ⟨tangent_hit, rfl,
    by norm_num [tangent_ray, example_sphere, Ray.origin, length_squared],
    back_hit, rfl,
    by norm_num [example_ray, example_sphere, Ray.origin, length_squared]⟩

/-- C18 (amended): for every hit reported by `Sphere::hit` on a sphere of positive
radius with `t_min ≥ 0` and non-zero ray direction, `front_face` is true exactly
when the reported `t` is the smaller root and the discriminant is positive (the
ray enters the sphere there); it is false for a tangent hit and for a hit at the
larger root.  Hence `front_face` is false whenever the ray origin is strictly
inside the sphere, and true only if the origin is outside or on it. -/
theorem Sphere_hit_front_face (sqrt : K → K) (hsqrt : IsSqrt sqrt) (s : Sphere K) (r : Ray K)
    (t_min : K) (t_max : WithTop K) (rec : hit_record K) (hrad : 0 < s.radius)
    (hdir : r.direction ≠ ⟨0, 0, 0⟩) (hmin : 0 ≤ t_min)
    (h : s.hit sqrt r t_min t_max = some rec) :
    (rec.front_face = true ↔
        rec.t = Sphere.root1 sqrt s r ∧ 0 < Sphere.discriminant s r) ∧
      ((r.origin - s.center).length_squared < s.radius * s.radius →
        rec.front_face = false) ∧
      (rec.front_face = true →
        s.radius * s.radius ≤ (r.origin - s.center).length_squared) := by
  have ha := Sphere.quad_a_pos r hdir
  obtain ⟨hd, hcase⟩ := (Sphere.hit_some_iff sqrt s r t_min t_max rec).mp h
  obtain ⟨hs0, hsq⟩ := hsqrt _ hd
  have hle := Sphere.root1_le_root2 sqrt hsqrt s r ha hd
  have hiff : rec.front_face = true ↔
      rec.t = Sphere.root1 sqrt s r ∧ 0 < Sphere.discriminant s r := by
    rcases hcase with ⟨_, hrec⟩ | ⟨_, _, hrec⟩
    · rw [hrec, Sphere.fill_record_front_face, Sphere.half_b_add_root1 sqrt s r ha,
        decide_eq_true_eq, Sphere.fill_record_t, div_neg_iff]
      constructor
      · rintro (⟨h1, _⟩ | ⟨h1, _⟩)
        · exact absurd hrad (not_lt.mpr (le_of_lt ‹s.radius < 0›))
        · exact ⟨rfl, (hsqrt.sqrt_pos_iff hd).mp (by linarith)⟩
      · rintro ⟨_, h1⟩
        exact Or.inr ⟨by linarith [(hsqrt.sqrt_pos_iff hd).mpr h1], hrad⟩
    · rw [hrec, Sphere.fill_record_front_face, Sphere.half_b_add_root2 sqrt s r ha,
        decide_eq_true_eq, Sphere.fill_record_t]
      constructor
      · intro h1
        exact absurd h1 (not_lt.mpr (div_nonneg hs0 (le_of_lt hrad)))
      · rintro ⟨h1, h2⟩
        exfalso
        have hpos := (hsqrt.sqrt_pos_iff hd).mpr h2
        have h3 : Sphere.half_b s r + Sphere.quad_a r * Sphere.root2 sqrt s r
            = Sphere.half_b s r + Sphere.quad_a r * Sphere.root1 sqrt s r := by rw [h1]
        rw [Sphere.half_b_add_root1 sqrt s r ha, Sphere.half_b_add_root2 sqrt s r ha] at h3
        linarith
  have houter : rec.front_face = true →
      s.radius * s.radius ≤ (r.origin - s.center).length_squared := by
    intro hf
    obtain ⟨ht, _⟩ := hiff.mp hf
    have hin : t_min ≤ Sphere.root1 sqrt s r := by
      rcases hcase with ⟨h1, _⟩ | ⟨_, h2, hrec⟩
      · exact h1.1
      · rw [← ht, hrec, Sphere.fill_record_t]; exact h2.1
    have h1 : 0 ≤ Sphere.root1 sqrt s r := le_trans hmin hin
    have h2 : 0 ≤ Sphere.root2 sqrt s r := le_trans h1 hle
    have hc := Sphere.quadratic_factor sqrt hsqrt s r ha hd 0
    have hc0 : 0 ≤ Sphere.quad_c s r := by
      have : Sphere.quad_c s r =
          Sphere.quad_a r * (Sphere.root1 sqrt s r * Sphere.root2 sqrt s r) := by
        linear_combination hc
      rw [this]
      exact mul_nonneg (le_of_lt ha) (mul_nonneg h1 h2)
    unfold Sphere.quad_c at hc0
    linarith
  refine ⟨hiff, ?_, houter⟩
  intro hinside
  cases hf : rec.front_face with
  | false => rfl
  | true => exact absurd (houter hf) (not_le.mpr hinside)

/-- C18 (amended) at a concrete input: the centre ray enters the unit sphere at the
smaller root `t = 2` with positive discriminant, and `front_face` is true. -/
theorem Sphere_hit_front_face_witness :
    IsSqrt Real.sqrt ∧ (0 : ℝ) < (example_sphere : Sphere ℝ).radius ∧
      (example_ray : Ray ℝ).direction ≠ ⟨0, 0, 0⟩ ∧ (0 : ℝ) ≤ 0.001 ∧
      (example_sphere : Sphere ℝ).hit Real.sqrt example_ray 0.001 ⊤ = some example_rec ∧
      ((example_rec : hit_record ℝ).front_face = true ↔
        (example_rec : hit_record ℝ).t = Sphere.root1 Real.sqrt example_sphere example_ray ∧
          0 < Sphere.discriminant (example_sphere : Sphere ℝ) example_ray) :=
  ⟨isSqrt_real, by norm_num [example_sphere], example_ray_direction_ne, by norm_num,
    example_sphere_hit,
    (Sphere_hit_front_face Real.sqrt isSqrt_real example_sphere example_ray 0.001 ⊤ example_rec
      (by norm_num [example_sphere]) example_ray_direction_ne (by norm_num)
      example_sphere_hit).1⟩

/-- C19: if every Lambertian and Metal albedo of the scene has all components in
`[0,1]`, then for every ray, every depth budget and every sequence of random draws
every component of the colour `ray_color` returns lies in `[0,1]`. -/
theorem ray_color_in_unit_range (sqrt : K → K) (hsqrt : IsSqrt sqrt) (eps : K)
    (world : Hittable_list K)
    (halbedo : ∀ s ∈ world.objects, s.mat_ptr.albedo_in_unit_range)
    (draws : Nat → Draws K) (r : Ray K) (depth : Int) :
    (ray_color sqrt eps draws r world depth).in_unit_range :=
  ray_color_in_unit_range_aux sqrt hsqrt eps world halbedo depth.toNat depth
    (Int.self_le_toNat depth) draws r

/-- C19 at a concrete input: the two-sphere scene (grey matte, glass), the centre
ray and budget 50 over the reals. -/
theorem ray_color_in_unit_range_witness :
    IsSqrt Real.sqrt ∧
      (∀ s ∈ (example_world : Hittable_list ℝ).objects, s.mat_ptr.albedo_in_unit_range) ∧
      (ray_color Real.sqrt 0.00000001 example_draws example_ray
        (example_world : Hittable_list ℝ) 50).in_unit_range :=
  have halbedo : ∀ s ∈ (example_world : Hittable_list ℝ).objects,
      s.mat_ptr.albedo_in_unit_range := by
    intro s hs
    simp only [example_world, List.mem_cons, List.mem_singleton, List.not_mem_nil,
      or_false] at hs
    rcases hs with rfl | rfl
    · simp [far_sphere, Material.albedo_in_unit_range]
    · norm_num [example_sphere, example_material, Material.albedo_in_unit_range,
        Vec3.in_unit_range]
  ⟨isSqrt_real, halbedo,
    ray_color_in_unit_range Real.sqrt isSqrt_real 0.00000001 example_world halbedo
      example_draws example_ray 50⟩

/-- C20 (the constant at fault): the `pi` of `math_utils.h`, 3.14159265335897932385,
is smaller than π by more than `2e-10`, so it is not within `1e-15` of π, and
neither is `degrees_to_radians(180)`, which is this constant. -/
theorem pi_constant_off_by_more_than_2e10 :
    (2 : ℝ) / 10 ^ 10 < Real.pi - (pi : ℝ) ∧
      ¬ (|(pi : ℝ) - Real.pi| < 1 / 10 ^ 15) ∧
      degrees_to_radians (180 : ℝ) = (pi : ℝ) ∧
      ¬ (|degrees_to_radians (180 : ℝ) - Real.pi| < 1 / 10 ^ 15) := by
  have hpi : (pi : ℝ) = 3.14159265335897932385 := rfl
  have hgap : (2 : ℝ) / 10 ^ 10 < Real.pi - (pi : ℝ) := by
    have := Real.pi_gt_d20
    rw [hpi]
    norm_num at this ⊢
    linarith
  have hdeg : degrees_to_radians (180 : ℝ) = (pi : ℝ) := by
    unfold degrees_to_radians
    norm_num
  have hnot : ¬ (|(pi : ℝ) - Real.pi| < 1 / 10 ^ 15) := by
    rw [abs_sub_comm, abs_of_pos (by linarith [show (0 : ℝ) < 2 / 10 ^ 10 by norm_num])]
    have : (1 : ℝ) / 10 ^ 15 < 2 / 10 ^ 10 := by norm_num
    linarith
  exact ⟨hgap, hnot, hdeg, by rw [hdeg]; exact hnot⟩

end Claims

end Raytracer
